import Mathlib

/-!
Verification development for the PMM position fetcher
(`pmmPositionFetcher.js`, `multicall.js`, `config.js`, `web/main.js`,
`api/pmm-positions.js`).

The JavaScript source is shallowly embedded: every remote interaction
(provider, registry contract, Multicall3 aggregator, per-call decoding by
the ethers ABI coder) is abstracted as an oracle recorded in an `Env`
record, and each source function becomes a pure Lean function of the
environment.  JavaScript `BigInt` values are embedded as `Int`, byte
strings as `List Nat`, and addresses / symbols as `String`.
-/

set_option maxHeartbeats 1000000

namespace PMM

/-! ### JavaScript string `includes` (substring test)

`getAllLPTokens` classifies a caught error by
`error.message.includes('revert') || error.message.includes('execution reverted')`.
We embed `String.prototype.includes` as a direct substring scan. -/

/-- Boolean prefix test on character lists. -/
def prefOf : List Char → List Char → Bool
  | [], _ => true
  | _ :: _, [] => false
  | a :: as, b :: bs => a == b && prefOf as bs

/-- Boolean substring test on character lists: some suffix starts with `pat`. -/
def subOf (pat : List Char) : List Char → Bool
  | [] => prefOf pat []
  | l@(_ :: t) => prefOf pat l || subOf pat t

/-- Embedding of JavaScript `s.includes(pat)`. -/
def strIncludes (s pat : String) : Bool := subOf pat.data s.data

/-! ### Decimal digits

`ethers.formatUnits` / `ethers.parseUnits` (ethers v6) convert between
`BigInt` and decimal strings.  `BigInt.prototype.toString` renders a
canonical decimal numeral; we embed it with an explicit fuel argument
(`fuel = n` suffices since the argument shrinks by a factor of ten each
step), which keeps the definition structurally recursive. -/

/-- The decimal digit character for a value `0 ≤ d ≤ 9`. -/
def decChar : Nat → Char
  | 0 => '0' | 1 => '1' | 2 => '2' | 3 => '3' | 4 => '4'
  | 5 => '5' | 6 => '6' | 7 => '7' | 8 => '8' | _ => '9'

/-- The value of a decimal digit character, `none` on a non-digit. -/
def charVal (c : Char) : Option Nat :=
  if '0' ≤ c ∧ c ≤ '9' then some (c.toNat - 48) else none

/-- Boolean digit test. -/
def isDigitB (c : Char) : Bool := (charVal c).isSome

/-- Most-significant-first decimal rendering of a positive natural, with fuel. -/
def natToDecGo : Nat → Nat → List Char → List Char
  | 0, _, acc => acc
  | _ + 1, 0, acc => acc
  | fuel + 1, n + 1, acc =>
    natToDecGo fuel ((n + 1) / 10) (decChar ((n + 1) % 10) :: acc)

/-- Canonical decimal numeral of a natural number (JS `BigInt.toString` on `≥ 0`). -/
def natToDec (n : Nat) : List Char := if n = 0 then ['0'] else natToDecGo n n []

/-- Value of a digit list continued from accumulator `a` (fold of `a*10 + digit`). -/
def decValueFrom (a : Nat) (l : List Char) : Nat :=
  l.foldl (fun x c => x * 10 + (charVal c).getD 0) a

/-- Value of a most-significant-first digit list. -/
def decValue (l : List Char) : Nat := decValueFrom 0 l

/-- Parse a digit list, `none` when any character is not a decimal digit. -/
def digitsVal (l : List Char) : Option Nat :=
  if l.all isDigitB then some (decValue l) else none

/-! ### ethers v6 `formatUnits` / `parseUnits`

`listPmmPositions` renders quantities with
`ethers.formatUnits(position, decimals)`.  In ethers v6 this pads the
absolute value to at least `decimals + 1` digits, splits off `decimals`
fraction digits, strips trailing fraction zeros keeping at least one, and
prepends the sign — embedded here verbatim.  `parseUnits` is the inverse
parser used to state the round-trip property of the specification. -/

/-- Strip leading `'0'`s of a list while more than one character remains
(applied to the reversed fraction, i.e. trailing zeros of the fraction). -/
def trimR : List Char → List Char
  | [] => []
  | c :: rest => if c == '0' && !rest.isEmpty then trimR rest else c :: rest

/-- Strip trailing zeros of a fraction, keeping at least one digit. -/
def stripFracZeros (frac : List Char) : List Char := (trimR frac.reverse).reverse

/-- Embedding of ethers v6 `formatUnits` on character lists. -/
def formatUnitsL (v : Int) (d : Nat) : List Char :=
  let s := natToDec v.natAbs
  if d = 0 then (if v < 0 then '-' :: s else s)
  else
    let p := List.replicate (d + 1 - s.length) '0' ++ s
    let whole := p.take (p.length - d)
    let frac := stripFracZeros (p.drop (p.length - d))
    (if v < 0 then ['-'] else []) ++ whole ++ '.' :: frac

/-- Embedding of ethers v6 `formatUnits` producing a `String`. -/
def formatUnits (v : Int) (d : Nat) : String := String.mk (formatUnitsL v d)

/-- Apply a sign flag to a natural magnitude. -/
def intSign (neg : Bool) (n : Nat) : Int := if neg then -(n : Int) else (n : Int)

/-- Split a character list at every `'.'` (JS `split('.')`). -/
def splitOnDot : List Char → List (List Char)
  | [] => [[]]
  | c :: t =>
    if c == '.' then [] :: splitOnDot t
    else
      match splitOnDot t with
      | [] => [[c]]
      | h :: r => (c :: h) :: r

/-- Embedding of ethers v6 `parseUnits` on character lists: an optional
sign, a whole part and at most `d` fraction digits; the result is the
fixed-point integer at scale `d`. -/
def parseUnitsL (l : List Char) (d : Nat) : Option Int :=
  let neg := l.headD 'x' == '-'
  let body := if neg then l.tail else l
  match splitOnDot body with
  | [w] =>
    if w.isEmpty then none
    else
      match digitsVal w with
      | some n => some (intSign neg (n * 10 ^ d))
      | none => none
  | [w, f] =>
    if f.length ≤ d && !(w.isEmpty && f.isEmpty) then
      match digitsVal w, digitsVal f with
      | some nw, some nf => some (intSign neg (nw * 10 ^ d + nf * 10 ^ (d - f.length)))
      | _, _ => none
    else none
  | _ => none

/-- Embedding of ethers v6 `parseUnits` on `String`. -/
def parseUnits (s : String) (d : Nat) : Option Int := parseUnitsL s.data d

/-! ### Data model

Typed call payloads stand for the ABI-encoded `callData` produced by
`encodeFunctionData` (the encoding is injective per method/arguments, so a
constructor-based representation is faithful).  A `CallResult` is the
`{success, data}` pair returned per call by `Multicall3.aggregate3` and by
`batchCall`. -/

/-- The four read-only contract methods the fetcher encodes. -/
inductive CallPayload where
  | underlying : CallPayload
  | decimals : CallPayload
  | symbol : CallPayload
  | positions : String → String → CallPayload
deriving DecidableEq

/-- One entry of an `aggregate3` call list: `{target, allowFailure, callData}`. -/
structure Call3 where
  target : String
  allowFailure : Bool
  callData : CallPayload
deriving DecidableEq

/-- Per-call outcome `{success, data}` of the batch executor. -/
structure CallResult where
  success : Bool
  data : List Nat
deriving DecidableEq

/-- Result of `getUnderlyingToken` (the serial metadata read). -/
structure UData where
  address : String
  decimals : Nat
  symbol : String
deriving DecidableEq

/-- One metadata entry pushed into `tokenData` by `batchGetUnderlyingTokens`. -/
structure TokenData where
  lpTokenAddress : String
  underlyingAddress : String
  decimals : Nat
  symbol : String
  isLPToken : Bool
deriving DecidableEq

/-- One quantity entry pushed into `positions` by `batchGetPositions`.
The source stores `position.toString()` and later compares it with `'0'`;
since `BigInt` decimal strings are canonical this is embedded as an `Int`
compared with `0`. -/
structure PosResult where
  tokenAddress : String
  position : Int
  success : Bool
deriving DecidableEq

/-- One entry of the final report's `positions` array. -/
structure PosEntry where
  tokenAddress : String
  tokenSymbol : String
  lpTokenAddress : Option String
  position : Int
  positionFormatted : String
  decimals : Nat
deriving DecidableEq

/-- The report's `summary` object. -/
structure Summary where
  totalTokens : Nat
  tokensWithPositions : Nat
  fetchTime : Nat
deriving DecidableEq

/-- The value returned by `listPmmPositions`.  `targetBlock` keeps the
optional pinned height (`none` is rendered `'latest'` by the source). -/
structure Report where
  chainId : Nat
  chainName : String
  pmmAddress : String
  targetBlock : Option Nat
  positions : List PosEntry
  summary : Summary
deriving DecidableEq

/-- The remote world as an oracle record.  All remote reads are pinned to
an optional block height, matching the `blockTag` threading in the source.

* `connErr` — a failure of `getProvider` / `getCreditVaultContract`
  before the scan (connectivity probe timeout or unconfigured vault).
* `allLPTokens bt i` — the registry's indexed read `allLPTokens(i)`:
  either an address or a thrown error's message string.
* `aggFail bt t cs` — whether the `aggregate3` aggregate request itself
  throws, on attempt `t` with call list `cs`.
* `aggRes bt t c` — the per-call `{success, returnData}` pair the
  aggregator reports for call `c` on attempt `t` (the Multicall3 contract
  returns exactly one pair per submitted call).
* `indivUnderlying bt a` — result of the serial `getUnderlyingToken`
  (`none` models its internal catch returning `null`).
* `indivPosition bt o a` — result of a direct `creditVault.positions(o,a)`
  call (`none` models a throw).
* `decAddr` / `decU8` / `decStr` / `decInt` — the ethers ABI decoder on
  raw return bytes, `none` modelling a decode throw.
* `isAddress` — `ethers.isAddress`.
* `elapsed` — the wall-clock duration `Date.now() - startTime` observed
  by this run. -/
structure Env where
  connErr : Option String
  allLPTokens : Option Nat → Nat → Except String String
  aggFail : Option Nat → Nat → List Call3 → Bool
  aggRes : Option Nat → Nat → Call3 → CallResult
  indivUnderlying : Option Nat → String → Option UData
  indivPosition : Option Nat → String → String → Option Int
  decAddr : List Nat → Option String
  decU8 : List Nat → Option Nat
  decStr : List Nat → Option String
  decInt : List Nat → Option Int
  isAddress : String → Bool
  elapsed : Nat

/-- `ethers.ZeroAddress`. -/
def zeroAddress : String := "0x0000000000000000000000000000000000000000"

/-- Chain name per supported chain id (`CHAIN_CONFIGS` in `config.js`);
`none` for an unsupported id (`isValidChainId` is false). -/
def chainNameOf : Nat → Option String
  | 1 => some "Ethereum"
  | 56 => some "BSC"
  | 42161 => some "Arbitrum"
  | 8453 => some "Base"
  | _ => none

/-- Default CreditVault address per chain (`CHAIN_CONFIGS` in `config.js`). -/
def creditVaultAddress : Nat → String
  | 1 => "0xe3D41d19564922C9952f692C5Dd0563030f5f2EF"
  | 56 => "0xBA8dB0CAf781cAc69b6acf6C848aC148264Cc05d"
  | 42161 => "0xbA1cf8A63227b46575AF823BEB4d83D1025eff09"
  | 8453 => "0x74a4Cd023e5AfB88369E3f22b02440F2614a1367"
  | _ => ""

/-! ### Batch Call Executor (`multicall.js`)

`createContractCall` marks every call failure-tolerant; `batchCall` maps
`aggregate3`'s `{success, returnData}` pairs to `{success, data}`;
`batchCallWithRetry` re-submits only the failed calls, tracked by their
original indices, and overwrites exactly those positions. -/

/-- `createContractCall(target, abi, method, params)`. -/
def createContractCall (target : String) (payload : CallPayload) : Call3 :=
  { target := target, allowFailure := true, callData := payload }

/-- `aggregate3` + `batchCall`: one aggregate request on attempt `t`; a
throw is an `error`, otherwise one `CallResult` per call. -/
def batchCall (env : Env) (bt : Option Nat) (t : Nat) (calls : List Call3) :
    Except Unit (List CallResult) :=
  if env.aggFail bt t calls then .error () else .ok (calls.map (env.aggRes bt t))

/-- The failed entries of a result list, `{index, call}` pairs in order —
the `map`/`filter` over `(result, index)` in `batchCallWithRetry`,
enumerated from `i`. -/
def failedOf : Nat → List (Call3 × CallResult) → List (Nat × Call3)
  | _, [] => []
  | i, (c, r) :: rest =>
    (if r.success then [] else [(i, c)]) ++ failedOf (i + 1) rest

/-- The `forEach` writing retry outcomes back at their original indices. -/
def scatter (rs : List CallResult) (ps : List (Nat × CallResult)) : List CallResult :=
  ps.foldl (fun acc p => acc.set p.1 p.2) rs

/-- The retry loop of `batchCallWithRetry`: `rem` retries remain and the
next aggregate attempt is numbered `t`. -/
def retryRounds (env : Env) (bt : Option Nat) (calls : List Call3) :
    Nat → Nat → List CallResult → Except Unit (List CallResult)
  | 0, _, results => .ok results
  | rem + 1, t, results =>
    let failed := failedOf 0 (calls.zip results)
    if failed.isEmpty then .ok results
    else
      match batchCall env bt t (failed.map Prod.snd) with
      | .error e => .error e
      | .ok retryResults =>
        retryRounds env bt calls rem (t + 1)
          (scatter results ((failed.map Prod.fst).zip retryResults))

/-- `batchCallWithRetry(contractCalls, maxRetries, blockNumber)`. -/
def batchCallWithRetry (env : Env) (bt : Option Nat) (calls : List Call3)
    (maxRetries : Nat) : Except Unit (List CallResult) :=
  match batchCall env bt 0 calls with
  | .error e => .error e
  | .ok results => retryRounds env bt calls maxRetries 1 results

/-- Outcome for one call after attempts `0..n`: the first successful
attempt's result, or attempt `n`'s (failed) result when none succeeded. -/
def firstOk (env : Env) (bt : Option Nat) (c : Call3) : Nat → CallResult
  | 0 => env.aggRes bt 0 c
  | n + 1 =>
    let r := firstOk env bt c n
    if r.success then r else env.aggRes bt (n + 1) c

/-! ### Enumeration scanner (`getAllLPTokens`)

The source loop runs `index = 0, 1, …`, breaking on a zero/empty address,
on any caught error (revert-classified or not — both branches `break`),
or when `index` exceeds the 1000 safety cap after a push.  `rem` is the
remaining headroom `1000 - index`, so the cap break `index + 1 > 1000`
is the `rem = 0` case; this keeps the recursion structural. -/

/-- The scan loop of `pmmPositionFetcher.js` / `web/main.js`
`getAllLPTokens` (both catch branches terminate the loop silently). -/
def scanGo (env : Env) (bt : Option Nat) : Nat → Nat → List String → List String
  | idx, rem, acc =>
    match env.allLPTokens bt idx with
    | .error _ => acc
    | .ok addr =>
      if addr ≠ "" ∧ addr ≠ zeroAddress then
        let acc' := acc ++ [addr]
        match rem with
        | 0 => acc'
        | rem' + 1 => scanGo env bt (idx + 1) rem' acc'
      else acc

/-- `getAllLPTokens(chainId, blockNumber)`: contract acquisition may
throw (`connErr`), the loop itself never does. -/
def getAllLPTokens (env : Env) (bt : Option Nat) : Except String (List String) :=
  match env.connErr with
  | some m => .error m
  | none => .ok (scanGo env bt 0 1000 [])

/-- The scan loop of `api/pmm-positions.js`: a revert-classified error
ends the enumeration, any other error is rethrown. -/
def handlerScanGo (env : Env) (bt : Option Nat) :
    Nat → Nat → List String → Except String (List String)
  | idx, rem, acc =>
    match env.allLPTokens bt idx with
    | .error m =>
      if strIncludes m "revert" || strIncludes m "execution reverted" then .ok acc
      else .error m
    | .ok addr =>
      if addr ≠ "" ∧ addr ≠ zeroAddress then
        let acc' := acc ++ [addr]
        match rem with
        | 0 => .ok acc'
        | rem' + 1 => handlerScanGo env bt (idx + 1) rem' acc'
      else .ok acc

/-! ### Chunking

`for (let i = 0; i < n; i += batchSize)` slices contiguous chunks; the
fuel is the list length, an upper bound on the iteration count since each
iteration consumes at least one element (`batchSize ≥ 1` at both call
sites). -/

/-- Contiguous chunks of size `bs`, fuelled. -/
def chunksGo (bs : Nat) : Nat → List α → List (List α)
  | 0, _ => []
  | _, [] => []
  | fuel + 1, l@(_ :: _) => l.take bs :: chunksGo bs fuel (l.drop bs)

/-- Contiguous chunks of size `bs` of a list. -/
def chunks (bs : Nat) (l : List α) : List (List α) := chunksGo bs l.length l

/-! ### Stage 2: `batchGetUnderlyingTokens` -/

/-- The three calls built per LP token (`underlying`, `decimals`, `symbol`). -/
def callsForToken (addr : String) : List Call3 :=
  [createContractCall addr .underlying,
   createContractCall addr .decimals,
   createContractCall addr .symbol]

/-- The combined call list of one metadata chunk. -/
def chunkCallsU (batch : List String) : List Call3 :=
  (batch.map callsForToken).flatten

/-- The fallback metadata entry: the LP token itself, 18 decimals, `'LP'`. -/
def fallbackTD (addr : String) : TokenData :=
  { lpTokenAddress := addr, underlyingAddress := addr, decimals := 18,
    symbol := "LP", isLPToken := false }

/-- Process one result triplet: all three sub-calls must have succeeded,
all three decodes must succeed, and the resolved underlying must be a
non-zero address; otherwise the fallback entry. -/
def processOne (env : Env) (addr : String) (u d s : CallResult) : TokenData :=
  if u.success && d.success && s.success then
    match env.decAddr u.data, env.decU8 d.data, env.decStr s.data with
    | some ua, some dec, some sym =>
      if ua ≠ "" ∧ ua ≠ zeroAddress then
        { lpTokenAddress := addr, underlyingAddress := ua, decimals := dec,
          symbol := sym, isLPToken := true }
      else fallbackTD addr
    | _, _, _ => fallbackTD addr
  else fallbackTD addr

/-- The `j` loop over a chunk, reading `results[3j]`, `results[3j+1]`,
`results[3j+2]` — consumed three at a time. -/
def processTriplets (env : Env) : List String → List CallResult → List TokenData
  | [], _ => []
  | a :: as, rs =>
    processOne env a (rs.getD 0 ⟨false, []⟩) (rs.getD 1 ⟨false, []⟩)
        (rs.getD 2 ⟨false, []⟩)
      :: processTriplets env as (rs.drop 3)

/-- The serial fallback for one LP token (`getUnderlyingToken` returns
`null` on any internal error; a zero underlying also falls back). -/
def serialTD (env : Env) (bt : Option Nat) (addr : String) : TokenData :=
  match env.indivUnderlying bt addr with
  | some ud =>
    if ud.address ≠ zeroAddress then
      { lpTokenAddress := addr, underlyingAddress := ud.address,
        decimals := ud.decimals, symbol := ud.symbol, isLPToken := true }
    else fallbackTD addr
  | none => fallbackTD addr

/-- One metadata chunk: `batchCallWithRetry(batchCalls, 1, blockNumber)`,
falling back to serial per-token calls when the aggregate path throws. -/
def chunkU (env : Env) (bt : Option Nat) (batch : List String) : List TokenData :=
  match batchCallWithRetry env bt (chunkCallsU batch) 1 with
  | .error _ => batch.map (serialTD env bt)
  | .ok results => processTriplets env batch results

/-- `batchGetUnderlyingTokens(chainId, lpTokenAddresses, blockNumber)`,
batch size 10. -/
def batchGetUnderlyingTokens (env : Env) (bt : Option Nat) (lps : List String) :
    List TokenData :=
  ((chunks 10 lps).map (chunkU env bt)).flatten

/-! ### Stage 3: `batchGetPositions` -/

/-- The `positions(trader, token)` call against the CreditVault. -/
def posCall (vault owner token : String) : Call3 :=
  createContractCall vault (.positions owner token)

/-- Process one quantity result: decode an `int256` on success; a failed
call or failed decode yields position `0` with `success = false`. -/
def processPos (env : Env) (a : String) (r : CallResult) : PosResult :=
  if r.success then
    match env.decInt r.data with
    | some v => { tokenAddress := a, position := v, success := true }
    | none => { tokenAddress := a, position := 0, success := false }
  else { tokenAddress := a, position := 0, success := false }

/-- The `j` loop over a quantity chunk, one result per token. -/
def processPosList (env : Env) : List String → List CallResult → List PosResult
  | [], _ => []
  | a :: as, rs =>
    processPos env a (rs.getD 0 ⟨false, []⟩) :: processPosList env as (rs.drop 1)

/-- The serial fallback for one token: `getPosition` catches every error
and returns `0n`, and the caller then records `success: true`
unconditionally — a failed serial quantity read is indistinguishable from
an empty position. -/
def serialPos (env : Env) (bt : Option Nat) (owner a : String) : PosResult :=
  match env.indivPosition bt owner a with
  | some v => { tokenAddress := a, position := v, success := true }
  | none => { tokenAddress := a, position := 0, success := true }

/-- One quantity chunk: aggregate path with one retry, serial fallback on
an aggregate throw. -/
def chunkP (env : Env) (bt : Option Nat) (vault owner : String)
    (batch : List String) : List PosResult :=
  match batchCallWithRetry env bt (batch.map (posCall vault owner)) 1 with
  | .error _ => batch.map (serialPos env bt owner)
  | .ok rs => processPosList env batch rs

/-- `batchGetPositions(chainId, traderAddress, tokenAddresses, blockNumber)`,
batch size 20. -/
def batchGetPositions (env : Env) (bt : Option Nat) (vault owner : String)
    (addrs : List String) : List PosResult :=
  ((chunks 20 addrs).map (chunkP env bt vault owner)).flatten

/-! ### Join and report (`listPmmPositions`) -/

/-- One final report entry built from a metadata entry and its
index-aligned quantity result. -/
def mkEntry (td : TokenData) (pr : PosResult) : PosEntry :=
  { tokenAddress := td.underlyingAddress, tokenSymbol := td.symbol,
    lpTokenAddress := if td.isLPToken then some td.lpTokenAddress else none,
    position := pr.position,
    positionFormatted := formatUnits pr.position td.decimals,
    decimals := td.decimals }

/-- The join loop: for each index, append an entry exactly when the
quantity result succeeded with a non-zero position. -/
def buildPositions : List TokenData → List PosResult → List PosEntry
  | [], _ => []
  | td :: tds, prs =>
    (if (prs.getD 0 ⟨"", 0, false⟩).success ∧ (prs.getD 0 ⟨"", 0, false⟩).position ≠ 0
     then [mkEntry td (prs.getD 0 ⟨"", 0, false⟩)] else [])
      ++ buildPositions tds (prs.drop 1)

/-- `listPmmPositions(pmmAddress, chainId, targetBlock)`: validation,
scan, metadata resolution, quantity resolution, join, summary. -/
def listPmmPositions (env : Env) (pmm : String) (chainId : Nat)
    (tb : Option Nat) : Except String Report :=
  if !env.isAddress pmm then .error ("Invalid PMM address: " ++ pmm)
  else
    match chainNameOf chainId with
    | none => .error "Unsupported chain ID"
    | some cname =>
      match getAllLPTokens env tb with
      | .error m => .error m
      | .ok lpTokens =>
        if lpTokens.isEmpty then
          .ok { chainId := chainId, chainName := cname, pmmAddress := pmm,
                targetBlock := tb, positions := [],
                summary := { totalTokens := 0, tokensWithPositions := 0,
                             fetchTime := env.elapsed } }
        else
          let tokenData := batchGetUnderlyingTokens env tb lpTokens
          let positionResults :=
            batchGetPositions env tb (creditVaultAddress chainId) pmm
              (tokenData.map (·.underlyingAddress))
          let positions := buildPositions tokenData positionResults
          .ok { chainId := chainId, chainName := cname, pmmAddress := pmm,
                targetBlock := tb, positions := positions,
                summary := { totalTokens := tokenData.length,
                             tokensWithPositions := positions.length,
                             fetchTime := env.elapsed } }

/-! ## Lemmas: chunking and stage lengths -/

theorem chunksGo_flatten {α : Type _} (bs : Nat) (hbs : bs ≠ 0) :
    ∀ fuel (l : List α), l.length ≤ fuel → (chunksGo bs fuel l).flatten = l := by
  intro fuel
  induction fuel with
  | zero =>
    intro l hl
    have : l = [] := List.eq_nil_of_length_eq_zero (Nat.le_zero.mp hl)
    subst this; rfl
  | succ fuel ih =>
    intro l hl
    cases l with
    | nil => rfl
    | cons x t =>
      show (List.take bs (x :: t) :: chunksGo bs fuel (List.drop bs (x :: t))).flatten
          = x :: t
      have hdrop : (List.drop bs (x :: t)).length ≤ fuel := by
        rw [List.length_drop]
        have h1 : (x :: t).length ≤ fuel + 1 := hl
        have h2 : 1 ≤ bs := Nat.one_le_iff_ne_zero.mpr hbs
        omega
      simp only [List.flatten_cons, ih _ hdrop, List.take_append_drop]

theorem chunks_flatten {α : Type _} (bs : Nat) (hbs : bs ≠ 0) (l : List α) :
    (chunks bs l).flatten = l :=
  chunksGo_flatten bs hbs l.length l (Nat.le_refl _)

theorem flatten_map_length {α β : Type _} (f : List α → List β)
    (h : ∀ x, (f x).length = x.length) :
    ∀ L : List (List α), ((L.map f).flatten).length = L.flatten.length := by
  intro L
  induction L with
  | nil => rfl
  | cons x t ih =>
    simp only [List.map_cons, List.flatten_cons, List.length_append, ih, h]

theorem processTriplets_length (env : Env) :
    ∀ (as : List String) (rs : List CallResult),
      (processTriplets env as rs).length = as.length := by
  intro as
  induction as with
  | nil => intro rs; rfl
  | cons a t ih => intro rs; simp only [processTriplets, List.length_cons, ih]

theorem processPosList_length (env : Env) :
    ∀ (as : List String) (rs : List CallResult),
      (processPosList env as rs).length = as.length := by
  intro as
  induction as with
  | nil => intro rs; rfl
  | cons a t ih => intro rs; simp only [processPosList, List.length_cons, ih]

theorem chunkU_length (env : Env) (bt : Option Nat) (batch : List String) :
    (chunkU env bt batch).length = batch.length := by
  unfold chunkU
  cases batchCallWithRetry env bt (chunkCallsU batch) 1 with
  | error e => simp
  | ok rs => exact processTriplets_length env batch rs

theorem chunkP_length (env : Env) (bt : Option Nat) (vault owner : String)
    (batch : List String) : (chunkP env bt vault owner batch).length = batch.length := by
  unfold chunkP
  cases batchCallWithRetry env bt (batch.map (posCall vault owner)) 1 with
  | error e => simp
  | ok rs => exact processPosList_length env batch rs

theorem batchGetUnderlyingTokens_length (env : Env) (bt : Option Nat)
    (lps : List String) : (batchGetUnderlyingTokens env bt lps).length = lps.length := by
  unfold batchGetUnderlyingTokens
  rw [flatten_map_length _ (chunkU_length env bt), chunks_flatten 10 (by omega)]

theorem batchGetPositions_length (env : Env) (bt : Option Nat) (vault owner : String)
    (addrs : List String) :
    (batchGetPositions env bt vault owner addrs).length = addrs.length := by
  unfold batchGetPositions
  rw [flatten_map_length _ (chunkP_length env bt vault owner), chunks_flatten 20 (by omega)]

/-- C2: for every run of the resolution pipeline, the stage-2 metadata
list has exactly the length of the stage-1 item list, and the stage-3
quantity list (taken over the metadata list's resolved references) has
exactly the length of the metadata list; failed sub-results become
placeholder entries at their index, never a shorter array. -/
theorem stage_lengths_align (env : Env) (bt : Option Nat) (vault owner : String)
    (lps : List String) :
    (batchGetUnderlyingTokens env bt lps).length = lps.length ∧
    (batchGetPositions env bt vault owner
        ((batchGetUnderlyingTokens env bt lps).map (·.underlyingAddress))).length
      = (batchGetUnderlyingTokens env bt lps).length := by
  refine ⟨batchGetUnderlyingTokens_length env bt lps, ?_⟩
  rw [batchGetPositions_length, List.length_map]

/-! ## Lemmas: the retry executor

`firstOk` is the per-call outcome of the retry discipline; the lemmas
below show the loop of `batchCallWithRetry` computes exactly that at
every original index, whenever no aggregate request throws. -/

theorem firstOk_success_stable (env : Env) (bt : Option Nat) (c : Call3) (n : Nat)
    (h : (firstOk env bt c n).success = true) :
    ∀ k, firstOk env bt c (n + k) = firstOk env bt c n := by
  intro k
  induction k with
  | zero => rfl
  | succ k ih =>
    show firstOk env bt c (n + k + 1) = _
    rw [firstOk, ih]
    simp only [h, if_true]

theorem firstOk_of_allFail (env : Env) (bt : Option Nat) (c : Call3) :
    ∀ n, (∀ t, t ≤ n → (env.aggRes bt t c).success = false) →
      firstOk env bt c n = env.aggRes bt n c := by
  intro n
  induction n with
  | zero => intro _; rfl
  | succ n ih =>
    intro h
    rw [firstOk, ih (fun t ht => h t (Nat.le_succ_of_le ht))]
    simp only [h n (Nat.le_succ n), if_false, Bool.false_eq_true]

theorem firstOk_of_zero_success (env : Env) (bt : Option Nat) (c : Call3) (n : Nat)
    (h : (env.aggRes bt 0 c).success = true) :
    firstOk env bt c n = env.aggRes bt 0 c := by
  have h0 : firstOk env bt c 0 = env.aggRes bt 0 c := rfl
  have := firstOk_success_stable env bt c 0 (by rw [h0]; exact h) n
  rw [Nat.zero_add] at this
  rw [this, h0]

theorem mem_failedOf :
    ∀ (l : List (Call3 × CallResult)) (i j : Nat) (c : Call3),
      (j, c) ∈ failedOf i l ↔
        ∃ k r, j = i + k ∧ l[k]? = some (c, r) ∧ r.success = false := by
  intro l
  induction l with
  | nil =>
    intro i j c
    simp [failedOf]
  | cons p rest ih =>
    intro i j c
    obtain ⟨c₀, r₀⟩ := p
    simp only [failedOf, List.mem_append]
    constructor
    · intro h
      rcases h with h | h
      · by_cases hs : r₀.success
        · simp [hs] at h
        · simp [hs] at h
          exact ⟨0, r₀, by omega, by simp [h.1, h.2], by simpa using hs⟩
      · obtain ⟨k, r, hj, hget, hr⟩ := (ih (i + 1) j c).mp h
        exact ⟨k + 1, r, by omega, by simpa using hget, hr⟩
    · rintro ⟨k, r, hj, hget, hr⟩
      cases k with
      | zero =>
        simp only [List.getElem?_cons_zero, Option.some.injEq, Prod.mk.injEq] at hget
        left
        simp [hget.2, hr, ← hget.1, hj]
      | succ k =>
        right
        refine (ih (i + 1) j c).mpr ⟨k, r, by omega, by simpa using hget, hr⟩

theorem failedOf_ge :
    ∀ (l : List (Call3 × CallResult)) (i : Nat) (p : Nat × Call3),
      p ∈ failedOf i l → i ≤ p.1 := by
  intro l
  induction l with
  | nil => intro i p h; simp [failedOf] at h
  | cons q rest ih =>
    intro i p h
    obtain ⟨c₀, r₀⟩ := q
    simp only [failedOf, List.mem_append] at h
    rcases h with h | h
    · by_cases hs : r₀.success
      · simp [hs] at h
      · simp [hs] at h
        subst h
        exact Nat.le_refl i
    · have := ih (i + 1) p h
      omega

theorem failedOf_pairwise :
    ∀ (l : List (Call3 × CallResult)) (i : Nat),
      ((failedOf i l).map Prod.fst).Pairwise (· < ·) := by
  intro l
  induction l with
  | nil => intro i; simp [failedOf]
  | cons q rest ih =>
    intro i
    obtain ⟨c₀, r₀⟩ := q
    by_cases hs : r₀.success
    · simpa [failedOf, hs] using ih (i + 1)
    · simp only [failedOf, hs, if_false, List.map_append, List.map_cons, List.map_nil,
        Bool.false_eq_true, List.nil_append, List.cons_append, List.pairwise_cons]
      refine ⟨?_, ih (i + 1)⟩
      intro x hx
      obtain ⟨p, hp, hpx⟩ := List.mem_map.mp hx
      have := failedOf_ge rest (i + 1) p hp
      omega

theorem scatter_length :
    ∀ (ps : List (Nat × CallResult)) (rs : List CallResult),
      (scatter rs ps).length = rs.length := by
  intro ps
  induction ps with
  | nil => intro rs; rfl
  | cons p t ih =>
    intro rs
    show (scatter (rs.set p.1 p.2) t).length = rs.length
    rw [ih, List.length_set]

theorem scatter_getElem?_notin :
    ∀ (ps : List (Nat × CallResult)) (rs : List CallResult) (j : Nat),
      j ∉ ps.map Prod.fst → (scatter rs ps)[j]? = rs[j]? := by
  intro ps
  induction ps with
  | nil => intro rs j _; rfl
  | cons p t ih =>
    intro rs j hj
    simp only [List.map_cons, List.mem_cons, not_or] at hj
    show (scatter (rs.set p.1 p.2) t)[j]? = rs[j]?
    rw [ih _ j hj.2, List.getElem?_set_ne (fun h => hj.1 h.symm)]

theorem scatter_getElem?_mem :
    ∀ (ps : List (Nat × CallResult)) (rs : List CallResult) (j : Nat) (v : CallResult),
      (ps.map Prod.fst).Pairwise (· ≠ ·) → (j, v) ∈ ps → j < rs.length →
      (scatter rs ps)[j]? = some v := by
  intro ps
  induction ps with
  | nil => intro rs j v _ h _; simp at h
  | cons p t ih =>
    intro rs j v hpw hmem hlt
    simp only [List.map_cons, List.pairwise_cons] at hpw
    rcases List.mem_cons.mp hmem with heq | hmem'
    · have hj : p.1 = j := congrArg Prod.fst heq.symm
      have hv : p.2 = v := congrArg Prod.snd heq.symm
      subst hj; subst hv
      show (scatter (rs.set p.1 p.2) t)[p.1]? = some p.2
      have hnotin : p.1 ∉ t.map Prod.fst := fun h => hpw.1 p.1 h rfl
      rw [scatter_getElem?_notin t _ _ hnotin]
      rw [List.getElem?_set_self]
      · simp [hlt]
    · show (scatter (rs.set p.1 p.2) t)[j]? = some v
      exact ih _ j v hpw.2 hmem' (by rw [List.length_set]; exact hlt)

theorem retryRounds_ok (env : Env) (bt : Option Nat) (calls : List Call3)
    (hnf : ∀ t cs, env.aggFail bt t cs = false) :
    ∀ (rem t : Nat) (results : List CallResult),
      results.length = calls.length →
      (∀ (j : Nat) (c : Call3), calls[j]? = some c → results[j]? = some (firstOk env bt c t)) →
      ∃ rs, retryRounds env bt calls rem (t + 1) results = .ok rs ∧
        rs.length = calls.length ∧
        (∀ (j : Nat) (c : Call3), calls[j]? = some c → rs[j]? = some (firstOk env bt c (t + rem))) := by
  intro rem
  induction rem with
  | zero =>
    intro t results hlen hpt
    exact ⟨results, rfl, hlen, by simpa using hpt⟩
  | succ rem ih =>
    intro t results hlen hpt
    by_cases hf : (failedOf 0 (calls.zip results)).isEmpty
    · have hsucc : ∀ (j : Nat) (c : Call3), calls[j]? = some c → (firstOk env bt c t).success = true := by
        intro j c hc
        by_contra hns
        have hr := hpt j c hc
        have hzip : (calls.zip results)[j]? = some (c, firstOk env bt c t) :=
          List.getElem?_zip_eq_some.mpr ⟨hc, hr⟩
        have hmem : (j, c) ∈ failedOf 0 (calls.zip results) :=
          (mem_failedOf _ 0 j c).mpr
            ⟨j, firstOk env bt c t, by omega, hzip, by simpa using hns⟩
        rw [List.isEmpty_iff] at hf
        rw [hf] at hmem
        simp at hmem
      refine ⟨results, ?_, hlen, ?_⟩
      · simp only [retryRounds, hf, if_true]
      · intro j c hc
        have hstab := firstOk_success_stable env bt c t (hsucc j c hc) (rem + 1)
        rw [hstab]
        exact hpt j c hc
    · set failed := failedOf 0 (calls.zip results) with hfaildef
      have hbc : batchCall env bt (t + 1) (failed.map Prod.snd)
          = .ok ((failed.map Prod.snd).map (env.aggRes bt (t + 1))) := by
        simp [batchCall, hnf]
      have hpairs : (failed.map Prod.fst).zip ((failed.map Prod.snd).map (env.aggRes bt (t + 1)))
          = failed.map (fun p => (p.1, env.aggRes bt (t + 1) p.2)) := by
        rw [List.map_map]
        exact List.zip_map' Prod.fst (env.aggRes bt (t + 1) ∘ Prod.snd) failed
      have hlen2 :
          (scatter results (failed.map (fun p => (p.1, env.aggRes bt (t + 1) p.2)))).length
            = calls.length := by
        rw [scatter_length, hlen]
      have hpt2 : ∀ (j : Nat) (c : Call3), calls[j]? = some c →
          (scatter results (failed.map (fun p => (p.1, env.aggRes bt (t + 1) p.2))))[j]?
            = some (firstOk env bt c (t + 1)) := by
        intro j c hc
        have hr := hpt j c hc
        have hzip : (calls.zip results)[j]? = some (c, firstOk env bt c t) :=
          List.getElem?_zip_eq_some.mpr ⟨hc, hr⟩
        by_cases hs : (firstOk env bt c t).success
        · have hnotin :
              j ∉ (failed.map (fun p => (p.1, env.aggRes bt (t + 1) p.2))).map Prod.fst := by
            rw [List.map_map]
            intro hmem
            obtain ⟨p, hp, hpj⟩ := List.mem_map.mp hmem
            have hpj' : p.1 = j := hpj
            have hpmem : (j, p.2) ∈ failed := by rw [← hpj']; exact hp
            obtain ⟨k, r', hk, hget, hrs⟩ := (mem_failedOf _ 0 j p.2).mp hpmem
            have hkj : k = j := by omega
            rw [hkj, hzip] at hget
            have h2 : r' = firstOk env bt c t := by
              have := congrArg (fun o => o.map Prod.snd) hget
              simpa using this.symm
            rw [h2] at hrs
            rw [hs] at hrs
            exact Bool.noConfusion hrs
          rw [scatter_getElem?_notin _ _ _ hnotin, hr]
          have : firstOk env bt c (t + 1) = firstOk env bt c t := by
            rw [firstOk]; simp only [hs, if_true]
          rw [this]
        · have hmem : (j, c) ∈ failed :=
            (mem_failedOf _ 0 j c).mpr
              ⟨j, firstOk env bt c t, by omega, hzip, by simpa using hs⟩
          have hmem2 : (j, env.aggRes bt (t + 1) c)
              ∈ failed.map (fun p => (p.1, env.aggRes bt (t + 1) p.2)) :=
            List.mem_map.mpr ⟨(j, c), hmem, rfl⟩
          have hpw :
              ((failed.map (fun p => (p.1, env.aggRes bt (t + 1) p.2))).map Prod.fst).Pairwise
                (· ≠ ·) := by
            rw [List.map_map]
            have h0 := failedOf_pairwise (calls.zip results) 0
            have hmf : (failed.map (Prod.fst ∘ fun p => (p.1, env.aggRes bt (t + 1) p.2)))
                = failed.map Prod.fst := by
              apply List.map_congr_left; intro p _; rfl
            rw [hmf]
            exact h0.imp Nat.ne_of_lt
          have hjlt : j < results.length := by
            rw [hlen]; exact (List.getElem?_eq_some_iff.mp hc).1
          rw [scatter_getElem?_mem _ _ _ _ hpw hmem2 hjlt]
          have : firstOk env bt c (t + 1) = env.aggRes bt (t + 1) c := by
            rw [firstOk]
            simp only [Bool.not_eq_true] at hs
            simp only [hs, if_false, Bool.false_eq_true]
          rw [this]
      obtain ⟨rs, hrun, hrlen, hrpt⟩ := ih (t + 1) _ hlen2 hpt2
      refine ⟨rs, ?_, hrlen, ?_⟩
      · simp only [retryRounds, ← hfaildef, hf, if_false, Bool.false_eq_true]
        rw [hbc]
        simp only [hpairs]
        exact hrun
      · intro j c hc
        have := hrpt j c hc
        have harith : t + 1 + rem = t + (rem + 1) := by omega
        rw [harith] at this
        exact this

theorem batchCallWithRetry_eq_map (env : Env) (bt : Option Nat)
    (hnf : ∀ t cs, env.aggFail bt t cs = false) (calls : List Call3) (maxR : Nat) :
    batchCallWithRetry env bt calls maxR
      = .ok (calls.map (fun c => firstOk env bt c maxR)) := by
  unfold batchCallWithRetry
  have hbc : batchCall env bt 0 calls = .ok (calls.map (env.aggRes bt 0)) := by
    simp [batchCall, hnf]
  rw [hbc]
  obtain ⟨rs, hrun, hrlen, hrpt⟩ :=
    retryRounds_ok env bt calls hnf maxR 0 (calls.map (env.aggRes bt 0))
      (by simp)
      (by intro j c hc; rw [List.getElem?_map, hc]; rfl)
  rw [Nat.zero_add] at hrun
  show retryRounds env bt calls maxR 1 (List.map (env.aggRes bt 0) calls)
      = Except.ok (calls.map (fun c => firstOk env bt c maxR))
  rw [hrun]
  congr 1
  apply List.ext_getElem?
  intro j
  rcases hj : calls[j]? with _ | c
  · have hge : calls.length ≤ j := by
      by_contra hlt
      push_neg at hlt
      rw [List.getElem?_eq_getElem hlt] at hj
      exact Option.noConfusion hj
    rw [List.getElem?_eq_none (by rw [hrlen]; exact hge),
      List.getElem?_eq_none (by rw [List.length_map]; exact hge)]
  · rw [List.getElem?_map, hj]
    have := hrpt j c hj
    rw [Nat.zero_add] at this
    rw [this]
    rfl

/-- C3: `executeBatchWithRetry` (`batchCallWithRetry`) runs the full
batch once and then, up to `maxRetries` times, re-submits only the calls
whose result has `success == false`, tracked by their original indices
and overwritten in place: whenever no aggregate request throws, the
returned list is index-aligned with the input call list (same length,
same order), each position holds its call's first successful attempt —
so a position that was already successful is left unchanged — and a call
that fails on every attempt keeps its (last) failed result. -/
theorem batchCallWithRetry_spec (env : Env) (bt : Option Nat) (calls : List Call3)
    (maxR : Nat) (hnf : ∀ t cs, env.aggFail bt t cs = false) :
    batchCallWithRetry env bt calls maxR
        = .ok (calls.map (fun c => firstOk env bt c maxR))
    ∧ (calls.map (fun c => firstOk env bt c maxR)).length = calls.length
    ∧ (∀ c, (env.aggRes bt 0 c).success = true →
        firstOk env bt c maxR = env.aggRes bt 0 c)
    ∧ (∀ c, (∀ t, t ≤ maxR → (env.aggRes bt t c).success = false) →
        firstOk env bt c maxR = env.aggRes bt maxR c ∧
          (firstOk env bt c maxR).success = false) := by
  refine ⟨batchCallWithRetry_eq_map env bt hnf calls maxR, by simp, ?_, ?_⟩
  · intro c h
    exact firstOk_of_zero_success env bt c maxR h
  · intro c h
    refine ⟨firstOk_of_allFail env bt c maxR h, ?_⟩
    rw [firstOk_of_allFail env bt c maxR h]
    exact h maxR (Nat.le_refl _)

/-- Environment used to exercise the retry executor at a concrete input:
every call fails on attempt 0 and succeeds on attempt 1. -/
def envRetryW : Env where
  connErr := none
  allLPTokens := fun _ _ => .error "execution reverted"
  aggFail := fun _ _ _ => false
  aggRes := fun _ t _ => ⟨decide (1 ≤ t), [t]⟩
  indivUnderlying := fun _ _ => none
  indivPosition := fun _ _ _ => none
  decAddr := fun _ => none
  decU8 := fun _ => none
  decStr := fun _ => none
  decInt := fun _ => none
  isAddress := fun _ => false
  elapsed := 0

/-- C3 witness: at a concrete one-call batch failing on attempt 0 and
succeeding on the single retry, the executor returns the retry outcome. -/
theorem batchCallWithRetry_spec_witness :
    (∀ t cs, envRetryW.aggFail none t cs = false) ∧
    batchCallWithRetry envRetryW none [⟨"0xA", true, .underlying⟩] 1
      = .ok [⟨true, [1]⟩] := by
  refine ⟨fun t cs => rfl, ?_⟩
  rw [(batchCallWithRetry_spec envRetryW none [⟨"0xA", true, .underlying⟩] 1
    (fun _ _ => rfl)).1]
  rfl

/-! ## Lemmas: stage 2 pointwise characterisation -/

/-- The metadata entry stage 2 produces for one LP token along the
aggregate path: the triplet of per-call outcomes after one retry,
processed by the decode-and-fallback policy. -/
def okTD (env : Env) (bt : Option Nat) (addr : String) : TokenData :=
  processOne env addr
    (firstOk env bt (createContractCall addr .underlying) 1)
    (firstOk env bt (createContractCall addr .decimals) 1)
    (firstOk env bt (createContractCall addr .symbol) 1)

theorem processTriplets_map (env : Env) (f : Call3 → CallResult) :
    ∀ batch : List String,
      processTriplets env batch ((chunkCallsU batch).map f)
        = batch.map (fun a => processOne env a
            (f (createContractCall a .underlying))
            (f (createContractCall a .decimals))
            (f (createContractCall a .symbol))) := by
  intro batch
  induction batch with
  | nil => rfl
  | cons a as ih =>
    have hsplit : (chunkCallsU (a :: as)).map f
        = f (createContractCall a .underlying) :: f (createContractCall a .decimals)
            :: f (createContractCall a .symbol) :: (chunkCallsU as).map f := by
      simp [chunkCallsU, callsForToken]
    rw [hsplit]
    show processOne env a (f (createContractCall a .underlying))
        (f (createContractCall a .decimals)) (f (createContractCall a .symbol))
        :: processTriplets env as ((chunkCallsU as).map f) = _
    rw [ih, List.map_cons]

theorem chunkU_eq_map (env : Env) (bt : Option Nat)
    (hnf : ∀ t cs, env.aggFail bt t cs = false) (batch : List String) :
    chunkU env bt batch = batch.map (okTD env bt) := by
  unfold chunkU
  rw [batchCallWithRetry_eq_map env bt hnf (chunkCallsU batch) 1]
  exact processTriplets_map env (fun c => firstOk env bt c 1) batch

theorem batchGetUnderlyingTokens_eq_map (env : Env) (bt : Option Nat)
    (hnf : ∀ t cs, env.aggFail bt t cs = false) (lps : List String) :
    batchGetUnderlyingTokens env bt lps = lps.map (okTD env bt) := by
  unfold batchGetUnderlyingTokens
  have hcongr : (chunks 10 lps).map (chunkU env bt)
      = (chunks 10 lps).map (List.map (okTD env bt)) := by
    apply List.map_congr_left
    intro b _
    exact chunkU_eq_map env bt hnf b
  rw [hcongr, ← List.map_flatten, chunks_flatten 10 (by omega)]

theorem processOne_fallback (env : Env) (addr : String) (u d s : CallResult)
    (h : u.success = false ∨ d.success = false ∨ s.success = false
      ∨ env.decAddr u.data = none ∨ env.decU8 d.data = none
      ∨ env.decStr s.data = none
      ∨ (∃ ua, env.decAddr u.data = some ua ∧ (ua = "" ∨ ua = zeroAddress))) :
    processOne env addr u d s = fallbackTD addr := by
  unfold processOne
  rcases h with h | h | h | h | h | h | ⟨ua, hua, hz⟩
  · simp [h]
  · simp [h]
  · simp [h]
  · rcases hd : env.decU8 d.data <;> rcases hs : env.decStr s.data <;> simp [h]
  · rcases ha : env.decAddr u.data <;> rcases hs : env.decStr s.data <;> simp [h]
  · rcases ha : env.decAddr u.data <;> rcases hd : env.decU8 d.data <;> simp [h]
  · rcases hd : env.decU8 d.data with _ | dec <;>
      rcases hs : env.decStr s.data with _ | sym <;>
      simp only [hua, hd, hs] <;>
      [skip; skip; skip; rcases hz with hz | hz] <;>
      simp_all

/-- C4: along the aggregate path (no aggregate throw), stage 2 resolves
every LP token to exactly one metadata entry, pointwise in its own
address — so one item's failure cannot affect any other item — and
whenever any of the item's 3 sub-calls still fails after the retry, or
any decode fails, or the resolved reference is empty or the zero
address, that item's entry is exactly the fallback
`{resolvedReference = itemIdentity, scale = 18, label = 'LP', isDerived = false}`. -/
theorem metadata_fallback_policy (env : Env) (bt : Option Nat) (lps : List String)
    (hnf : ∀ t cs, env.aggFail bt t cs = false) :
    batchGetUnderlyingTokens env bt lps = lps.map (okTD env bt)
    ∧ (batchGetUnderlyingTokens env bt lps).length = lps.length
    ∧ (∀ addr,
        ((firstOk env bt (createContractCall addr .underlying) 1).success = false
          ∨ (firstOk env bt (createContractCall addr .decimals) 1).success = false
          ∨ (firstOk env bt (createContractCall addr .symbol) 1).success = false
          ∨ env.decAddr (firstOk env bt (createContractCall addr .underlying) 1).data = none
          ∨ env.decU8 (firstOk env bt (createContractCall addr .decimals) 1).data = none
          ∨ env.decStr (firstOk env bt (createContractCall addr .symbol) 1).data = none
          ∨ (∃ ua, env.decAddr (firstOk env bt (createContractCall addr .underlying) 1).data
                = some ua ∧ (ua = "" ∨ ua = zeroAddress))) →
        okTD env bt addr = fallbackTD addr
        ∧ fallbackTD addr = { lpTokenAddress := addr, underlyingAddress := addr,
                              decimals := 18, symbol := "LP", isLPToken := false }) := by
  refine ⟨batchGetUnderlyingTokens_eq_map env bt hnf lps,
    batchGetUnderlyingTokens_length env bt lps, ?_⟩
  intro addr h
  exact ⟨processOne_fallback env addr _ _ _ h, rfl⟩

/-- Environment for the C4 witness: the aggregate request never throws
but every individual sub-call keeps failing on both attempts. -/
def envMetaW : Env where
  connErr := none
  allLPTokens := fun _ _ => .error "execution reverted"
  aggFail := fun _ _ _ => false
  aggRes := fun _ _ _ => ⟨false, []⟩
  indivUnderlying := fun _ _ => none
  indivPosition := fun _ _ _ => none
  decAddr := fun _ => none
  decU8 := fun _ => none
  decStr := fun _ => none
  decInt := fun _ => none
  isAddress := fun _ => false
  elapsed := 0

/-- C4 witness: one LP token whose three sub-calls fail after the retry
produces exactly the fallback metadata entry. -/
theorem metadata_fallback_policy_witness :
    (∀ t cs, envMetaW.aggFail none t cs = false) ∧
    okTD envMetaW none "0xA" = fallbackTD "0xA" ∧
    batchGetUnderlyingTokens envMetaW none ["0xA"]
      = [{ lpTokenAddress := "0xA", underlyingAddress := "0xA", decimals := 18,
           symbol := "LP", isLPToken := false }] := by
  refine ⟨fun t cs => rfl, ?_, ?_⟩
  · exact ((metadata_fallback_policy envMetaW none ["0xA"] (fun _ _ => rfl)).2.2 "0xA"
      (Or.inl rfl)).1
  · rw [(metadata_fallback_policy envMetaW none ["0xA"] (fun _ _ => rfl)).1]
    rfl

/-! ## Lemmas: chunk-level degradation (serial fallback) -/

theorem chunkP_serial (env : Env) (bt : Option Nat) (vault owner : String)
    (batch : List String) (e : Unit)
    (h : batchCallWithRetry env bt (batch.map (posCall vault owner)) 1 = .error e) :
    chunkP env bt vault owner batch = batch.map (serialPos env bt owner) := by
  unfold chunkP
  rw [h]

theorem chunkU_serial (env : Env) (bt : Option Nat) (batch : List String) (e : Unit)
    (h : batchCallWithRetry env bt (chunkCallsU batch) 1 = .error e) :
    chunkU env bt batch = batch.map (serialTD env bt) := by
  unfold chunkU
  rw [h]

theorem serialTD_fail (env : Env) (bt : Option Nat) (a : String)
    (h : env.indivUnderlying bt a = none) : serialTD env bt a = fallbackTD a := by
  unfold serialTD
  rw [h]

theorem serialPos_ok (env : Env) (bt : Option Nat) (owner a : String) (v : Int)
    (h : env.indivPosition bt owner a = some v) :
    serialPos env bt owner a = ⟨a, v, true⟩ := by
  unfold serialPos
  rw [h]

theorem serialPos_fail (env : Env) (bt : Option Nat) (owner a : String)
    (h : env.indivPosition bt owner a = none) :
    serialPos env bt owner a = ⟨a, 0, true⟩ := by
  unfold serialPos
  rw [h]

/-- C5 (amended): when a chunk's aggregate request throws, every call of
that chunk is re-executed serially and the chunk's output keeps the
input's length, so the batch-level failure never escapes the stage (the
stage functions are total and only per-entry data reflects failures).
In the metadata stage a failed serial read yields the fallback metadata
value; in the quantity stage the serial wrapper (`getPosition`) swallows
the failure and records quantity `0` with `success = true` — not a
`success = false` placeholder. -/
theorem chunk_failure_degrades (env : Env) (bt : Option Nat) (vault owner : String)
    (batch : List String) :
    (∀ e, batchCallWithRetry env bt (batch.map (posCall vault owner)) 1 = .error e →
      chunkP env bt vault owner batch = batch.map (serialPos env bt owner))
    ∧ (∀ e, batchCallWithRetry env bt (chunkCallsU batch) 1 = .error e →
      chunkU env bt batch = batch.map (serialTD env bt))
    ∧ (∀ a, env.indivUnderlying bt a = none → serialTD env bt a = fallbackTD a)
    ∧ (∀ a v, env.indivPosition bt owner a = some v →
        serialPos env bt owner a = ⟨a, v, true⟩)
    ∧ (∀ a, env.indivPosition bt owner a = none →
        serialPos env bt owner a = ⟨a, 0, true⟩)
    ∧ (chunkP env bt vault owner batch).length = batch.length
    ∧ (chunkU env bt batch).length = batch.length :=
  ⟨fun e h => chunkP_serial env bt vault owner batch e h,
   fun e h => chunkU_serial env bt batch e h,
   fun a h => serialTD_fail env bt a h,
   fun a v h => serialPos_ok env bt owner a v h,
   fun a h => serialPos_fail env bt owner a h,
   chunkP_length env bt vault owner batch,
   chunkU_length env bt batch⟩

/-- Environment for the C5 counterexample and witness: every aggregate
request throws outright and every serial quantity read fails too. -/
def envAggFailW : Env where
  connErr := none
  allLPTokens := fun _ _ => .error "execution reverted"
  aggFail := fun _ _ _ => true
  aggRes := fun _ _ _ => ⟨false, []⟩
  indivUnderlying := fun _ _ => none
  indivPosition := fun _ _ _ => none
  decAddr := fun _ => none
  decU8 := fun _ => none
  decStr := fun _ => none
  decInt := fun _ => none
  isAddress := fun _ => false
  elapsed := 0

/-- C5 counterexample: with the chunk's aggregate request failing
outright and the serial `positions` read for token `"0xT"` also failing,
the quantity stage records `{position 0, success := true}` — not the
`{success := false}` placeholder the claim asserts — while the chunk
length is still preserved and no error escapes. -/
theorem chunk_failure_success_flag_cex :
    batchGetPositions envAggFailW none "0xV" "0xO" ["0xT"]
      = [{ tokenAddress := "0xT", position := 0, success := true }]
    ∧ envAggFailW.indivPosition none "0xO" "0xT" = none
    ∧ ({ tokenAddress := "0xT", position := 0, success := true } : PosResult)
        ≠ { tokenAddress := "0xT", position := 0, success := false } := by
  refine ⟨rfl, rfl, ?_⟩
  decide

/-- C5 witness: the amended theorem applied at the concrete failing
environment, discharging its chunk-failure and serial-failure
hypotheses. -/
theorem chunk_failure_degrades_witness :
    chunkP envAggFailW none "0xV" "0xO" ["0xT"]
        = ["0xT"].map (serialPos envAggFailW none "0xO")
    ∧ serialPos envAggFailW none "0xO" "0xT" = ⟨"0xT", 0, true⟩
    ∧ serialTD envAggFailW none "0xT" = fallbackTD "0xT" := by
  refine ⟨(chunk_failure_degrades envAggFailW none "0xV" "0xO" ["0xT"]).1 () rfl,
    (chunk_failure_degrades envAggFailW none "0xV" "0xO" ["0xT"]).2.2.2.2.1 "0xT" rfl,
    (chunk_failure_degrades envAggFailW none "0xV" "0xO" ["0xT"]).2.2.1 "0xT" rfl⟩

/-! ## Scanner: error classification and the safety cap -/

/-- Environment for the C1 counterexample: the very first indexed read
throws a connectivity-style error that is not revert-classified. -/
def envScanErrW : Env where
  connErr := none
  allLPTokens := fun _ _ => .error "ECONNREFUSED: connection refused"
  aggFail := fun _ _ _ => false
  aggRes := fun _ _ _ => ⟨false, []⟩
  indivUnderlying := fun _ _ => none
  indivPosition := fun _ _ _ => none
  decAddr := fun _ => none
  decU8 := fun _ => none
  decStr := fun _ => none
  decInt := fun _ => none
  isAddress := fun _ => false
  elapsed := 0

/-- C1 counterexample: in the library scanner (`pmmPositionFetcher.js`,
identically `web/main.js`), a non-revert error at index 0 does not abort
the scan or surface any discovery failure — `getAllLPTokens` returns a
clean, empty enumeration, contradicting the claim that only the two
terminal signals stop the loop without error. -/
theorem scan_error_swallowed_cex :
    getAllLPTokens envScanErrW none = Except.ok []
    ∧ strIncludes "ECONNREFUSED: connection refused" "revert" = false
    ∧ strIncludes "ECONNREFUSED: connection refused" "execution reverted" = false := by
  refine ⟨rfl, ?_, ?_⟩ <;> decide

/-- C1 (amended): an error from the indexed read stops the enumeration
in every implementation, but only the API-handler variant distinguishes
error classes: the library scanner silently ends the scan on any error
(revert-classified or not), while `api/pmm-positions.js` ends it
silently only on a revert-classified message and rethrows anything else
as a discovery failure. -/
theorem scan_error_classification (env : Env) (bt : Option Nat) (idx rem : Nat)
    (acc : List String) (m : String) (herr : env.allLPTokens bt idx = .error m) :
    scanGo env bt idx rem acc = acc
    ∧ (strIncludes m "revert" = false → strIncludes m "execution reverted" = false →
        handlerScanGo env bt idx rem acc = .error m)
    ∧ (strIncludes m "revert" = true ∨ strIncludes m "execution reverted" = true →
        handlerScanGo env bt idx rem acc = .ok acc) := by
  refine ⟨?_, ?_, ?_⟩
  · rw [scanGo, herr]
  · intro h1 h2
    rw [handlerScanGo, herr]
    simp [h1, h2]
  · intro h
    rw [handlerScanGo, herr]
    rcases h with h | h <;> simp [h]

/-- C1 witness: the amended classification evaluated on a concrete
non-revert error and a concrete revert error. -/
theorem scan_error_classification_witness :
    scanGo envScanErrW none 0 1000 [] = []
    ∧ handlerScanGo envScanErrW none 0 1000 []
        = .error "ECONNREFUSED: connection refused"
    ∧ handlerScanGo envRetryW none 0 1000 [] = .ok [] := by
  refine ⟨(scan_error_classification envScanErrW none 0 1000 [] _ rfl).1,
    (scan_error_classification envScanErrW none 0 1000 [] _ rfl).2.1 (by decide) (by decide),
    (scan_error_classification envRetryW none 0 1000 [] _ rfl).2.2 (Or.inl (by decide))⟩

/-! ## Scanner: termination bound (C9) -/

theorem scanGo_error (env : Env) (bt : Option Nat) (idx rem : Nat)
    (acc : List String) (m : String) (h : env.allLPTokens bt idx = .error m) :
    scanGo env bt idx rem acc = acc := by
  rw [scanGo, h]

theorem scanGo_invalid (env : Env) (bt : Option Nat) (idx rem : Nat)
    (acc : List String) (addr : String) (h : env.allLPTokens bt idx = .ok addr)
    (hv : ¬(addr ≠ "" ∧ addr ≠ zeroAddress)) :
    scanGo env bt idx rem acc = acc := by
  rw [scanGo, h]
  simp only [hv, if_false]

theorem scanGo_valid_zero (env : Env) (bt : Option Nat) (idx : Nat)
    (acc : List String) (addr : String) (h : env.allLPTokens bt idx = .ok addr)
    (hv : addr ≠ "" ∧ addr ≠ zeroAddress) :
    scanGo env bt idx 0 acc = acc ++ [addr] := by
  rw [scanGo, h]
  show (if addr ≠ "" ∧ addr ≠ zeroAddress then acc ++ [addr] else acc) = acc ++ [addr]
  rw [if_pos hv]

theorem scanGo_valid_succ (env : Env) (bt : Option Nat) (idx rem : Nat)
    (acc : List String) (addr : String) (h : env.allLPTokens bt idx = .ok addr)
    (hv : addr ≠ "" ∧ addr ≠ zeroAddress) :
    scanGo env bt idx (rem + 1) acc = scanGo env bt (idx + 1) rem (acc ++ [addr]) := by
  rw [scanGo, h]
  show (if addr ≠ "" ∧ addr ≠ zeroAddress then scanGo env bt (idx + 1) rem (acc ++ [addr])
    else acc) = scanGo env bt (idx + 1) rem (acc ++ [addr])
  rw [if_pos hv]

theorem scanGo_length_le (env : Env) (bt : Option Nat) :
    ∀ (rem idx : Nat) (acc : List String),
      (scanGo env bt idx rem acc).length ≤ acc.length + rem + 1 := by
  intro rem
  induction rem with
  | zero =>
    intro idx acc
    cases herr : env.allLPTokens bt idx with
    | error m =>
      rw [scanGo_error env bt idx 0 acc m herr]
      omega
    | ok addr =>
      by_cases hv : addr ≠ "" ∧ addr ≠ zeroAddress
      · rw [scanGo_valid_zero env bt idx acc addr herr hv]
        simp
      · rw [scanGo_invalid env bt idx 0 acc addr herr hv]
        omega
  | succ rem ih =>
    intro idx acc
    cases herr : env.allLPTokens bt idx with
    | error m =>
      rw [scanGo_error env bt idx (rem + 1) acc m herr]
      omega
    | ok addr =>
      by_cases hv : addr ≠ "" ∧ addr ≠ zeroAddress
      · rw [scanGo_valid_succ env bt idx rem acc addr herr hv]
        have := ih (idx + 1) (acc ++ [addr])
        simp only [List.length_append, List.length_cons, List.length_nil] at this
        omega
      · rw [scanGo_invalid env bt idx (rem + 1) acc addr herr hv]
        omega

theorem scanGo_all_valid (env : Env) (bt : Option Nat) (f : Nat → String) :
    ∀ (rem idx : Nat) (acc : List String),
      (∀ i, idx ≤ i → i ≤ idx + rem →
        env.allLPTokens bt i = .ok (f i) ∧ f i ≠ "" ∧ f i ≠ zeroAddress) →
      scanGo env bt idx rem acc = acc ++ (List.range' idx (rem + 1)).map f := by
  intro rem
  induction rem with
  | zero =>
    intro idx acc h
    obtain ⟨hok, hne, hnz⟩ := h idx (Nat.le_refl _) (by omega)
    rw [scanGo_valid_zero env bt idx acc (f idx) hok ⟨hne, hnz⟩]
    simp [List.range']
  | succ rem ih =>
    intro idx acc h
    obtain ⟨hok, hne, hnz⟩ := h idx (Nat.le_refl _) (by omega)
    rw [scanGo_valid_succ env bt idx rem acc (f idx) hok ⟨hne, hnz⟩]
    rw [ih (idx + 1) (acc ++ [f idx]) (fun i h1 h2 => h i (by omega) (by omega))]
    rw [List.range'_succ, List.map_cons, List.range'_succ, List.map_cons]
    rw [List.range'_succ, List.map_cons]
    simp

/-- C9: the registry scan always terminates (it is a total function) and
collects at most 1001 identities; the cap check `index > 1000` runs only
after a push, so against a registry that never produces a terminal
signal the scan reads and collects indices 0 through 1000 inclusive —
one more item than the nominal safety cap of 1000. -/
theorem scan_cap_1001 (env : Env) (bt : Option Nat) :
    (scanGo env bt 0 1000 []).length ≤ 1001
    ∧ (∀ f : Nat → String,
        (∀ i, i ≤ 1000 →
          env.allLPTokens bt i = .ok (f i) ∧ f i ≠ "" ∧ f i ≠ zeroAddress) →
        scanGo env bt 0 1000 [] = (List.range 1001).map f
          ∧ (scanGo env bt 0 1000 []).length = 1001) := by
  constructor
  · have := scanGo_length_le env bt 1000 0 []
    simpa using this
  · intro f h
    have heq := scanGo_all_valid env bt f 1000 0 []
      (fun i h1 h2 => h i (by omega))
    rw [List.range_eq_range']
    constructor
    · simpa using heq
    · rw [heq]
      simp

/-- Environment for the C9 witness: an inexhaustible registry whose
indexed read always returns the same non-zero address. -/
def envEndlessW : Env where
  connErr := none
  allLPTokens := fun _ _ => .ok "0xAAAAAAAAAAAAAAAAAAAAAAAAAAAAAAAAAAAAAAAA"
  aggFail := fun _ _ _ => false
  aggRes := fun _ _ _ => ⟨false, []⟩
  indivUnderlying := fun _ _ => none
  indivPosition := fun _ _ _ => none
  decAddr := fun _ => none
  decU8 := fun _ => none
  decStr := fun _ => none
  decInt := fun _ => none
  isAddress := fun _ => false
  elapsed := 0

/-- C9 witness: against the inexhaustible registry the scan stops with
exactly 1001 collected identities, indices 0 through 1000. -/
theorem scan_cap_1001_witness :
    (scanGo envEndlessW none 0 1000 []).length ≤ 1001
    ∧ scanGo envEndlessW none 0 1000 []
        = (List.range 1001).map (fun _ => "0xAAAAAAAAAAAAAAAAAAAAAAAAAAAAAAAAAAAAAAAA")
    ∧ (scanGo envEndlessW none 0 1000 []).length = 1001 := by
  refine ⟨(scan_cap_1001 envEndlessW none).1, ?_, ?_⟩
  · exact ((scan_cap_1001 envEndlessW none).2 _ (fun i _ => ⟨rfl, by decide, by decide⟩)).1
  · exact ((scan_cap_1001 envEndlessW none).2 _ (fun i _ => ⟨rfl, by decide, by decide⟩)).2

/-! ## Lemmas: the join loop and discovery-order preservation -/

theorem buildPositions_eq_filter :
    ∀ (td : List TokenData) (prs : List PosResult), prs.length = td.length →
      buildPositions td prs
        = ((td.zip prs).filter
            (fun p => p.2.success && decide (p.2.position ≠ 0))).map
            (fun p => mkEntry p.1 p.2) := by
  intro td
  induction td with
  | nil => intro prs _; rfl
  | cons t ts ih =>
    intro prs hlen
    cases prs with
    | nil => exact absurd hlen (by simp)
    | cons p ps =>
      have hps : ps.length = ts.length := by simpa using hlen
      show (if p.success ∧ p.position ≠ 0 then [mkEntry t p] else [])
          ++ buildPositions ts ps = _
      by_cases hc : p.success = true ∧ p.position ≠ 0
      · have hb : (p.success && decide (p.position ≠ 0)) = true := by
          rw [hc.1]
          simpa using hc.2
        rw [if_pos hc, List.zip_cons_cons]
        simp [List.filter_cons, hb, ih ps hps]
        rw [if_pos hc, List.map_cons]
      · have hb : (p.success && decide (p.position ≠ 0)) = false := by
          rcases Decidable.not_and_iff_or_not.mp hc with h | h
          · have hf : p.success = false := by simpa using h
            simp [hf]
          · have hz : p.position = 0 := by simpa using h
            simp [hz]
        rw [if_neg hc, List.zip_cons_cons]
        simp [List.filter_cons, hb, ih ps hps]
        rw [if_neg hc]

theorem countP_zip_snd (q : PosResult → Bool) :
    ∀ (td : List TokenData) (prs : List PosResult), prs.length = td.length →
      (td.zip prs).countP (fun p => q p.2) = prs.countP q := by
  intro td
  induction td with
  | nil =>
    intro prs hlen
    have : prs = [] := List.eq_nil_of_length_eq_zero (by simpa using hlen)
    subst this; rfl
  | cons t ts ih =>
    intro prs hlen
    cases prs with
    | nil => exact absurd hlen (by simp)
    | cons p ps =>
      have hps : ps.length = ts.length := by simpa using hlen
      rw [List.zip_cons_cons, List.countP_cons, List.countP_cons, ih ps hps]

theorem processOne_lp (env : Env) (addr : String) (u d s : CallResult) :
    (processOne env addr u d s).lpTokenAddress = addr := by
  unfold processOne fallbackTD
  repeat' split
  all_goals rfl

theorem serialTD_lp (env : Env) (bt : Option Nat) (a : String) :
    (serialTD env bt a).lpTokenAddress = a := by
  unfold serialTD fallbackTD
  repeat' split
  all_goals rfl

theorem processTriplets_lp (env : Env) :
    ∀ (as : List String) (rs : List CallResult),
      (processTriplets env as rs).map (·.lpTokenAddress) = as := by
  intro as
  induction as with
  | nil => intro rs; rfl
  | cons a t ih =>
    intro rs
    simp only [processTriplets, List.map_cons, processOne_lp, ih]

theorem chunkU_lp (env : Env) (bt : Option Nat) (batch : List String) :
    (chunkU env bt batch).map (·.lpTokenAddress) = batch := by
  unfold chunkU
  cases batchCallWithRetry env bt (chunkCallsU batch) 1 with
  | error e =>
    rw [List.map_map]
    have : ((·.lpTokenAddress) ∘ serialTD env bt) = fun a => a := by
      funext a
      exact serialTD_lp env bt a
    rw [this, List.map_id']
  | ok rs => exact processTriplets_lp env batch rs

theorem batchGetUnderlyingTokens_lp (env : Env) (bt : Option Nat)
    (lps : List String) :
    (batchGetUnderlyingTokens env bt lps).map (·.lpTokenAddress) = lps := by
  unfold batchGetUnderlyingTokens
  rw [List.map_flatten]
  have : ((chunks 10 lps).map (chunkU env bt)).map (List.map (·.lpTokenAddress))
      = (chunks 10 lps).map (fun b => b) := by
    rw [List.map_map]
    apply List.map_congr_left
    intro b _
    exact chunkU_lp env bt b
  rw [this]
  have : (chunks 10 lps).map (fun b => b) = chunks 10 lps := List.map_id' _
  rw [this, chunks_flatten 10 (by omega)]

/-- The stage-3 quantity list of a run, over the stage-2 metadata's
resolved references (`underlyingAddresses = tokenData.map(t => t.underlyingAddress)`). -/
def quantityResults (env : Env) (tb : Option Nat) (cid : Nat) (pmm : String)
    (lps : List String) : List PosResult :=
  batchGetPositions env tb (creditVaultAddress cid) pmm
    ((batchGetUnderlyingTokens env tb lps).map (·.underlyingAddress))

theorem listPmmPositions_ok_inv (env : Env) (pmm : String) (cid : Nat)
    (tb : Option Nat) (r : Report)
    (hrun : listPmmPositions env pmm cid tb = .ok r) :
    ∃ lps, getAllLPTokens env tb = .ok lps ∧
      r.positions = buildPositions (batchGetUnderlyingTokens env tb lps)
          (quantityResults env tb cid pmm lps)
      ∧ r.summary.tokensWithPositions = r.positions.length
      ∧ r.summary.totalTokens = (batchGetUnderlyingTokens env tb lps).length := by
  unfold listPmmPositions at hrun
  split at hrun
  · exact absurd hrun (by simp)
  · split at hrun
    · exact absurd hrun (by simp)
    · rename_i cname hname
      split at hrun
      · exact absurd hrun (by simp)
      · rename_i lps hlps
        split at hrun
        · rename_i hempty
          have hnil : lps = [] := List.isEmpty_iff.mp hempty
          subst hnil
          injection hrun with hr
          subst hr
          exact ⟨[], hlps, rfl, rfl, rfl⟩
        · injection hrun with hr
          subst hr
          exact ⟨lps, hlps, rfl, rfl, rfl⟩

/-- C8: for every successful run, a report entry is present for an index
exactly when that index's quantity result has `success` and a non-zero
signed quantity (the report is the filter of the index-aligned join);
`summary.tokensWithPositions` equals the number of entries; zero or
failed quantities produce no entry and no error — in particular an owner
with zero positions everywhere yields an empty entry list. -/
theorem report_entries_iff (env : Env) (pmm : String) (cid : Nat) (tb : Option Nat)
    (r : Report) (hrun : listPmmPositions env pmm cid tb = .ok r) :
    r.summary.tokensWithPositions = r.positions.length
    ∧ ∃ lps, getAllLPTokens env tb = .ok lps ∧
        (r.positions
            = (((batchGetUnderlyingTokens env tb lps).zip
                  (quantityResults env tb cid pmm lps)).filter
                (fun p => p.2.success && decide (p.2.position ≠ 0))).map
                (fun p => mkEntry p.1 p.2)
          ∧ r.positions.length
              = (quantityResults env tb cid pmm lps).countP
                  (fun pr => pr.success && decide (pr.position ≠ 0))
          ∧ ((∀ pr ∈ quantityResults env tb cid pmm lps,
                pr.success = false ∨ pr.position = 0) → r.positions = [])
          ∧ (∀ e ∈ r.positions, e.position ≠ 0)) := by
  obtain ⟨lps, hlps, hpos, hcount, _⟩ := listPmmPositions_ok_inv env pmm cid tb r hrun
  have hlen : (quantityResults env tb cid pmm lps).length
      = (batchGetUnderlyingTokens env tb lps).length := by
    unfold quantityResults
    rw [batchGetPositions_length, List.length_map]
  have hfilter := buildPositions_eq_filter (batchGetUnderlyingTokens env tb lps)
    (quantityResults env tb cid pmm lps) hlen
  refine ⟨hcount, lps, hlps, ?_, ?_, ?_, ?_⟩
  · rw [hpos, hfilter]
  · rw [hpos, hfilter, List.length_map, ← List.countP_eq_length_filter]
    exact countP_zip_snd (fun pr => pr.success && decide (pr.position ≠ 0)) _ _ hlen
  · intro hall
    rw [hpos, hfilter]
    have : ((batchGetUnderlyingTokens env tb lps).zip
        (quantityResults env tb cid pmm lps)).filter
        (fun p => p.2.success && decide (p.2.position ≠ 0)) = [] := by
      rw [List.filter_eq_nil_iff]
      intro q hq
      have hq2 := (List.of_mem_zip hq).2
      rcases hall q.2 hq2 with h | h
      · simp [h]
      · simp [h]
    rw [this]
    rfl
  · intro e he
    rw [hpos, hfilter] at he
    obtain ⟨q, hq, hqe⟩ := List.mem_map.mp he
    have hpred := List.of_mem_filter hq
    have hand : q.2.success = true ∧ decide (q.2.position ≠ 0) = true := by
      simpa [Bool.and_eq_true] using hpred
    have : q.2.position ≠ 0 := by simpa using hand.2
    rw [← hqe]
    exact this

/-- Environment for the C8 and C10 witnesses: one discovered item that
resolves cleanly and carries a non-zero position of 5. -/
def envRunW : Env where
  connErr := none
  allLPTokens := fun _ i => if i = 0 then .ok "0xT" else .error "execution reverted"
  aggFail := fun _ _ _ => false
  aggRes := fun _ _ _ => ⟨true, [0]⟩
  indivUnderlying := fun _ _ => none
  indivPosition := fun _ _ _ => none
  decAddr := fun _ => some "0xU"
  decU8 := fun _ => some 6
  decStr := fun _ => some "USD"
  decInt := fun _ => some 5
  isAddress := fun _ => true
  elapsed := 0

/-- The report `envRunW` produces. -/
def reportRunW : Report where
  chainId := 1
  chainName := "Ethereum"
  pmmAddress := "0xOwner"
  targetBlock := none
  positions := [{ tokenAddress := "0xU", tokenSymbol := "USD",
                  lpTokenAddress := some "0xT", position := 5,
                  positionFormatted := "0.000005", decimals := 6 }]
  summary := { totalTokens := 1, tokensWithPositions := 1, fetchTime := 0 }

/-- C8 witness: the concrete run produces exactly one entry (its single
quantity is successful and non-zero) and the summary counts it. -/
theorem report_entries_iff_witness :
    listPmmPositions envRunW "0xOwner" 1 none = .ok reportRunW
    ∧ reportRunW.summary.tokensWithPositions = reportRunW.positions.length :=
  ⟨rfl, (report_entries_iff envRunW "0xOwner" 1 none reportRunW rfl).1⟩

/-- C10: for every successful run the entries appear in discovery order —
the report's positions list is the in-order filtered subsequence of the
index-aligned join of the stage-2 and stage-3 lists, and stage 2 keeps
the discovered item identities at their original indices
(`tokenData[i].lpTokenAddress = lpTokens[i]`). -/
theorem report_order_preserved (env : Env) (pmm : String) (cid : Nat)
    (tb : Option Nat) (r : Report)
    (hrun : listPmmPositions env pmm cid tb = .ok r) :
    ∃ lps, getAllLPTokens env tb = .ok lps ∧
      (batchGetUnderlyingTokens env tb lps).map (·.lpTokenAddress) = lps
      ∧ r.positions
          = (((batchGetUnderlyingTokens env tb lps).zip
                (quantityResults env tb cid pmm lps)).filter
              (fun p => p.2.success && decide (p.2.position ≠ 0))).map
              (fun p => mkEntry p.1 p.2)
      ∧ r.positions.Sublist
          (((batchGetUnderlyingTokens env tb lps).zip
              (quantityResults env tb cid pmm lps)).map
            (fun p => mkEntry p.1 p.2)) := by
  obtain ⟨lps, hlps, hpos, _, _⟩ := listPmmPositions_ok_inv env pmm cid tb r hrun
  have hlen : (quantityResults env tb cid pmm lps).length
      = (batchGetUnderlyingTokens env tb lps).length := by
    unfold quantityResults
    rw [batchGetPositions_length, List.length_map]
  have hfilter := buildPositions_eq_filter (batchGetUnderlyingTokens env tb lps)
    (quantityResults env tb cid pmm lps) hlen
  refine ⟨lps, hlps, batchGetUnderlyingTokens_lp env tb lps, ?_, ?_⟩
  · rw [hpos, hfilter]
  · rw [hpos, hfilter]
    exact List.Sublist.map _ (List.filter_sublist _)

/-- C10 witness: in the concrete run, stage 2 keeps the discovered
identity at index 0 and the single entry is the in-order filtered join. -/
theorem report_order_preserved_witness :
    (batchGetUnderlyingTokens envRunW none ["0xT"]).map (·.lpTokenAddress) = ["0xT"]
    ∧ reportRunW.positions
        = (((batchGetUnderlyingTokens envRunW none ["0xT"]).zip
              (quantityResults envRunW none 1 "0xOwner" ["0xT"])).filter
            (fun p => p.2.success && decide (p.2.position ≠ 0))).map
            (fun p => mkEntry p.1 p.2) := by
  obtain ⟨lps, hlps, halign, hfilter, _⟩ :=
    report_order_preserved envRunW "0xOwner" 1 none reportRunW rfl
  have hl : lps = ["0xT"] := by
    have h2 : getAllLPTokens envRunW none = .ok ["0xT"] := rfl
    rw [h2] at hlps
    injection hlps.symm
  subst hl
  exact ⟨halign, hfilter⟩

/-! ## Determinism of a run (C7) -/

theorem scanGo_elapsed (env : Env) (e : Nat) (bt : Option Nat) :
    ∀ rem idx acc,
      scanGo { env with elapsed := e } bt idx rem acc = scanGo env bt idx rem acc := by
  intro rem
  induction rem with
  | zero =>
    intro idx acc
    cases herr : env.allLPTokens bt idx with
    | error m =>
      rw [scanGo_error { env with elapsed := e } bt idx 0 acc m herr,
        scanGo_error env bt idx 0 acc m herr]
    | ok addr =>
      by_cases hv : addr ≠ "" ∧ addr ≠ zeroAddress
      · rw [scanGo_valid_zero { env with elapsed := e } bt idx acc addr herr hv,
          scanGo_valid_zero env bt idx acc addr herr hv]
      · rw [scanGo_invalid { env with elapsed := e } bt idx 0 acc addr herr hv,
          scanGo_invalid env bt idx 0 acc addr herr hv]
  | succ rem ih =>
    intro idx acc
    cases herr : env.allLPTokens bt idx with
    | error m =>
      rw [scanGo_error { env with elapsed := e } bt idx (rem + 1) acc m herr,
        scanGo_error env bt idx (rem + 1) acc m herr]
    | ok addr =>
      by_cases hv : addr ≠ "" ∧ addr ≠ zeroAddress
      · rw [scanGo_valid_succ { env with elapsed := e } bt idx rem acc addr herr hv,
          scanGo_valid_succ env bt idx rem acc addr herr hv]
        exact ih (idx + 1) (acc ++ [addr])
      · rw [scanGo_invalid { env with elapsed := e } bt idx (rem + 1) acc addr herr hv,
          scanGo_invalid env bt idx (rem + 1) acc addr herr hv]

theorem getAllLPTokens_elapsed (env : Env) (e : Nat) (bt : Option Nat) :
    getAllLPTokens { env with elapsed := e } bt = getAllLPTokens env bt := by
  unfold getAllLPTokens
  rw [scanGo_elapsed env e bt 1000 0 []]

theorem retryRounds_elapsed (env : Env) (e : Nat) (bt : Option Nat)
    (calls : List Call3) :
    ∀ rem t results,
      retryRounds { env with elapsed := e } bt calls rem t results
        = retryRounds env bt calls rem t results := by
  intro rem
  induction rem with
  | zero => intro t results; rfl
  | succ rem ih =>
    intro t results
    show (let failed := failedOf 0 (calls.zip results)
      if failed.isEmpty then Except.ok results
      else
        match batchCall { env with elapsed := e } bt t (failed.map Prod.snd) with
        | .error e' => .error e'
        | .ok retryResults =>
          retryRounds { env with elapsed := e } bt calls rem (t + 1)
            (scatter results ((failed.map Prod.fst).zip retryResults))) = _
    have hbc : batchCall { env with elapsed := e } bt t
        ((failedOf 0 (calls.zip results)).map Prod.snd)
        = batchCall env bt t ((failedOf 0 (calls.zip results)).map Prod.snd) := rfl
    show (if (failedOf 0 (calls.zip results)).isEmpty then Except.ok results
      else
        match batchCall { env with elapsed := e } bt t
            ((failedOf 0 (calls.zip results)).map Prod.snd) with
        | .error e' => .error e'
        | .ok retryResults =>
          retryRounds { env with elapsed := e } bt calls rem (t + 1)
            (scatter results (((failedOf 0 (calls.zip results)).map Prod.fst).zip
              retryResults))) = _
    rw [hbc, retryRounds]
    by_cases hf : (failedOf 0 (calls.zip results)).isEmpty
    · rw [if_pos hf, if_pos hf]
    · rw [if_neg hf, if_neg hf]
      cases batchCall env bt t ((failedOf 0 (calls.zip results)).map Prod.snd) with
      | error e' => rfl
      | ok retryResults => exact ih (t + 1) _

theorem batchCallWithRetry_elapsed (env : Env) (e : Nat) (bt : Option Nat)
    (calls : List Call3) (maxR : Nat) :
    batchCallWithRetry { env with elapsed := e } bt calls maxR
      = batchCallWithRetry env bt calls maxR := by
  unfold batchCallWithRetry
  have hbc : batchCall { env with elapsed := e } bt 0 calls
      = batchCall env bt 0 calls := rfl
  rw [hbc]
  cases batchCall env bt 0 calls with
  | error e' => rfl
  | ok results => exact retryRounds_elapsed env e bt calls maxR 1 results

theorem processTriplets_elapsed (env : Env) (e : Nat) :
    ∀ (as : List String) (rs : List CallResult),
      processTriplets { env with elapsed := e } as rs = processTriplets env as rs := by
  intro as
  induction as with
  | nil => intro rs; rfl
  | cons a t ih =>
    intro rs
    show processOne { env with elapsed := e } a _ _ _
        :: processTriplets { env with elapsed := e } t (rs.drop 3) = _
    rw [ih (rs.drop 3)]
    rfl

theorem chunkU_elapsed (env : Env) (e : Nat) (bt : Option Nat) (batch : List String) :
    chunkU { env with elapsed := e } bt batch = chunkU env bt batch := by
  unfold chunkU
  rw [batchCallWithRetry_elapsed env e bt (chunkCallsU batch) 1]
  cases batchCallWithRetry env bt (chunkCallsU batch) 1 with
  | error e' => rfl
  | ok rs => exact processTriplets_elapsed env e batch rs

theorem batchGetUnderlyingTokens_elapsed (env : Env) (e : Nat) (bt : Option Nat)
    (lps : List String) :
    batchGetUnderlyingTokens { env with elapsed := e } bt lps
      = batchGetUnderlyingTokens env bt lps := by
  unfold batchGetUnderlyingTokens
  congr 1
  apply List.map_congr_left
  intro b _
  exact chunkU_elapsed env e bt b

theorem processPosList_elapsed (env : Env) (e : Nat) :
    ∀ (as : List String) (rs : List CallResult),
      processPosList { env with elapsed := e } as rs = processPosList env as rs := by
  intro as
  induction as with
  | nil => intro rs; rfl
  | cons a t ih =>
    intro rs
    show processPos { env with elapsed := e } a _
        :: processPosList { env with elapsed := e } t (rs.drop 1) = _
    rw [ih (rs.drop 1)]
    rfl

theorem chunkP_elapsed (env : Env) (e : Nat) (bt : Option Nat) (vault owner : String)
    (batch : List String) :
    chunkP { env with elapsed := e } bt vault owner batch
      = chunkP env bt vault owner batch := by
  unfold chunkP
  rw [batchCallWithRetry_elapsed env e bt (batch.map (posCall vault owner)) 1]
  cases batchCallWithRetry env bt (batch.map (posCall vault owner)) 1 with
  | error e' => rfl
  | ok rs => exact processPosList_elapsed env e batch rs

theorem batchGetPositions_elapsed (env : Env) (e : Nat) (bt : Option Nat)
    (vault owner : String) (addrs : List String) :
    batchGetPositions { env with elapsed := e } bt vault owner addrs
      = batchGetPositions env bt vault owner addrs := by
  unfold batchGetPositions
  congr 1
  apply List.map_congr_left
  intro b _
  exact chunkP_elapsed env e bt vault owner b

/-- C7 (amended): with the same owner, network, pinned height and
unchanged remote state, two runs produce identical reports in every
field except `summary.fetchTime`, which records that run's wall-clock
duration: changing only the observed duration maps the result through a
`fetchTime` replacement and nothing else. -/
theorem run_deterministic_up_to_time (env : Env) (e : Nat) (pmm : String)
    (cid : Nat) (tb : Option Nat) :
    listPmmPositions { env with elapsed := e } pmm cid tb
      = (listPmmPositions env pmm cid tb).map
          (fun r => { r with summary := { r.summary with fetchTime := e } }) := by
  have hgEq : getAllLPTokens { env with elapsed := e } tb = getAllLPTokens env tb :=
    getAllLPTokens_elapsed env e tb
  cases hb : env.isAddress pmm with
  | false => simp [listPmmPositions, hb, Except.map]
  | true =>
    cases hn : chainNameOf cid with
    | none => simp [listPmmPositions, hb, hn, Except.map]
    | some cname =>
      cases hg : getAllLPTokens env tb with
      | error m =>
        rw [hg] at hgEq
        simp [listPmmPositions, hb, hn, hg, hgEq, Except.map]
      | ok lps =>
        rw [hg] at hgEq
        by_cases he : lps.isEmpty
        · simp [listPmmPositions, hb, hn, hg, hgEq, he, Except.map]
        · simp [listPmmPositions, hb, hn, hg, hgEq, he, Except.map,
            batchGetUnderlyingTokens_elapsed, batchGetPositions_elapsed]

/-- C7 counterexample: two runs against identical remote state (the two
environments agree on every oracle and differ only in the observed
wall-clock duration) return reports that are not byte-identical: every
field agrees except `summary.fetchTime`. -/
theorem run_not_byte_identical_cex :
    listPmmPositions envRunW "0xOwner" 1 none = .ok reportRunW
    ∧ listPmmPositions { envRunW with elapsed := 1 } "0xOwner" 1 none
        = .ok { reportRunW with
                summary := { reportRunW.summary with fetchTime := 1 } }
    ∧ ({ reportRunW with
         summary := { reportRunW.summary with fetchTime := 1 } } : Report)
        ≠ reportRunW := by
  refine ⟨rfl, rfl, ?_⟩
  decide

/-! ## Lemmas: decimal rendering and parsing (C6) -/

theorem charVal_decChar (d : Nat) (hd : d < 10) : charVal (decChar d) = some d := by
  interval_cases d <;> rfl

theorem natToDecGo_append :
    ∀ (fuel n : Nat) (acc : List Char),
      natToDecGo fuel n acc = natToDecGo fuel n [] ++ acc := by
  intro fuel
  induction fuel with
  | zero => intro n acc; rfl
  | succ fuel ih =>
    intro n acc
    cases n with
    | zero => rfl
    | succ m =>
      show natToDecGo fuel ((m + 1) / 10) (decChar ((m + 1) % 10) :: acc)
          = natToDecGo fuel ((m + 1) / 10) [decChar ((m + 1) % 10)] ++ acc
      rw [ih ((m + 1) / 10) (decChar ((m + 1) % 10) :: acc),
        ih ((m + 1) / 10) [decChar ((m + 1) % 10)]]
      simp

theorem decValueFrom_eq : ∀ (l : List Char) (a : Nat),
    decValueFrom a l = a * 10 ^ l.length + decValue l := by
  intro l
  induction l with
  | nil => intro a; simp [decValueFrom, decValue]
  | cons c t ih =>
    intro a
    show decValueFrom (a * 10 + (charVal c).getD 0) t = _
    rw [ih (a * 10 + (charVal c).getD 0)]
    have hrhs : decValue (c :: t) = decValueFrom ((charVal c).getD 0) t := by
      show decValueFrom (0 * 10 + (charVal c).getD 0) t = _
      rw [Nat.zero_mul, Nat.zero_add]
    rw [hrhs, ih ((charVal c).getD 0)]
    simp [List.length_cons]
    ring

theorem decValue_append (l₁ l₂ : List Char) :
    decValue (l₁ ++ l₂) = decValue l₁ * 10 ^ l₂.length + decValue l₂ := by
  show decValueFrom 0 (l₁ ++ l₂) = _
  unfold decValueFrom
  rw [List.foldl_append]
  show decValueFrom (decValueFrom 0 l₁) l₂ = _
  rw [decValueFrom_eq l₂ (decValueFrom 0 l₁)]
  rfl

theorem decValue_replicate_zero (k : Nat) :
    decValue (List.replicate k '0') = 0 := by
  induction k with
  | zero => rfl
  | succ k ih =>
    show decValue ('0' :: List.replicate k '0') = 0
    show decValueFrom (0 * 10 + (charVal '0').getD 0) (List.replicate k '0') = 0
    simpa [charVal] using ih

theorem decValue_leading_zeros (k : Nat) (l : List Char) :
    decValue (List.replicate k '0' ++ l) = decValue l := by
  rw [decValue_append, decValue_replicate_zero]
  simp

theorem decValue_trailing_zeros (l : List Char) (k : Nat) :
    decValue (l ++ List.replicate k '0') = decValue l * 10 ^ k := by
  rw [decValue_append, decValue_replicate_zero, List.length_replicate]
  simp

theorem natToDecGo_spec :
    ∀ n : Nat, 0 < n → ∀ fuel : Nat, n ≤ fuel →
      decValue (natToDecGo fuel n []) = n
      ∧ (natToDecGo fuel n []).all isDigitB = true
      ∧ natToDecGo fuel n [] ≠ [] := by
  intro n
  induction n using Nat.strong_induction_on with
  | _ n ih =>
    intro hn fuel hfuel
    obtain ⟨f, rfl⟩ : ∃ f, fuel = f + 1 := ⟨fuel - 1, by omega⟩
    obtain ⟨m, rfl⟩ : ∃ m, n = m + 1 := ⟨n - 1, by omega⟩
    have hcv := charVal_decChar ((m + 1) % 10) (by omega)
    by_cases hq : (m + 1) / 10 = 0
    · have hlt : (m + 1) % 10 = m + 1 := by omega
      have hred : natToDecGo (f + 1) (m + 1) [] = [decChar ((m + 1) % 10)] := by
        show natToDecGo f ((m + 1) / 10) [decChar ((m + 1) % 10)] = _
        rw [hq]
        cases f with
        | zero => rfl
        | succ f => rfl
      rw [hred]
      refine ⟨?_, ?_, by simp⟩
      · show decValueFrom (0 * 10 + (charVal (decChar ((m + 1) % 10))).getD 0) [] = m + 1
        rw [hcv]
        show 0 * 10 + (m + 1) % 10 = m + 1
        omega
      · simp [isDigitB, hcv]
    · have hq1 : (m + 1) / 10 < m + 1 := Nat.div_lt_self (by omega) (by omega)
      have hgo : natToDecGo (f + 1) (m + 1) []
          = natToDecGo f ((m + 1) / 10) [] ++ [decChar ((m + 1) % 10)] := by
        show natToDecGo f ((m + 1) / 10) [decChar ((m + 1) % 10)] = _
        exact natToDecGo_append f ((m + 1) / 10) [decChar ((m + 1) % 10)]
      obtain ⟨hval, hdig, hne⟩ := ih ((m + 1) / 10) hq1 (by omega) f (by omega)
      rw [hgo]
      refine ⟨?_, ?_, by simp⟩
      · rw [decValue_append, hval]
        have hone : decValue [decChar ((m + 1) % 10)] = (m + 1) % 10 := by
          show decValueFrom (0 * 10 + (charVal (decChar ((m + 1) % 10))).getD 0) [] = _
          rw [hcv]
          show 0 * 10 + (m + 1) % 10 = (m + 1) % 10
          omega
        rw [hone]
        show (m + 1) / 10 * 10 ^ 1 + (m + 1) % 10 = m + 1
        omega
      · rw [List.all_append, hdig]
        simp [isDigitB, hcv]

theorem natToDec_val (n : Nat) : decValue (natToDec n) = n := by
  unfold natToDec
  by_cases h : n = 0
  · subst h
    rfl
  · rw [if_neg h]
    exact (natToDecGo_spec n (by omega) n (Nat.le_refl n)).1

theorem natToDec_digits (n : Nat) : (natToDec n).all isDigitB = true := by
  unfold natToDec
  by_cases h : n = 0
  · subst h
    rfl
  · rw [if_neg h]
    exact (natToDecGo_spec n (by omega) n (Nat.le_refl n)).2.1

theorem natToDec_ne_nil (n : Nat) : natToDec n ≠ [] := by
  unfold natToDec
  by_cases h : n = 0
  · subst h
    simp
  · rw [if_neg h]
    exact (natToDecGo_spec n (by omega) n (Nat.le_refl n)).2.2

theorem digitsVal_of_digits (l : List Char) (h : l.all isDigitB = true) :
    digitsVal l = some (decValue l) := by
  unfold digitsVal
  rw [h]
  rfl

theorem trimR_spec : ∀ l : List Char, l ≠ [] →
    ∃ k, l = List.replicate k '0' ++ trimR l ∧ trimR l ≠ [] := by
  intro l
  induction l with
  | nil => intro h; exact absurd rfl h
  | cons c rest ih =>
    intro _
    by_cases hc : c = '0' ∧ rest ≠ []
    · have ht : trimR (c :: rest) = trimR rest := by
        have h1 : (c == '0') = true := by simp [hc.1]
        have h2 : rest.isEmpty = false := by
          cases rest with
          | nil => exact absurd rfl hc.2
          | cons x xs => rfl
        show (if (c == '0' && !rest.isEmpty) = true then trimR rest else c :: rest)
            = trimR rest
        rw [h1, h2]
        simp
      obtain ⟨k, hk, hne⟩ := ih hc.2
      refine ⟨k + 1, ?_, by rw [ht]; exact hne⟩
      rw [ht, List.replicate_succ, List.cons_append, ← hk, hc.1]
    · have ht : trimR (c :: rest) = c :: rest := by
        show (if (c == '0' && !rest.isEmpty) = true then trimR rest else c :: rest)
            = c :: rest
        rcases Decidable.not_and_iff_or_not.mp hc with h | h
        · have h1 : (c == '0') = false := by simp [h]
          rw [h1]
          simp
        · have h2 : rest = [] := Decidable.not_not.mp h
          subst h2
          simp
      exact ⟨0, by rw [ht]; rfl, by rw [ht]; simp⟩

theorem isDigitB_ne_dot {c : Char} (h : isDigitB c = true) : c ≠ '.' := by
  intro hc
  subst hc
  exact absurd h (by decide)

theorem isDigitB_ne_dash {c : Char} (h : isDigitB c = true) : c ≠ '-' := by
  intro hc
  subst hc
  exact absurd h (by decide)

theorem all_digits_no_dot (l : List Char) (h : l.all isDigitB = true) :
    ∀ c ∈ l, c ≠ '.' := by
  intro c hc
  exact isDigitB_ne_dot (List.all_eq_true.mp h c hc)

theorem splitOnDot_noDot : ∀ l : List Char, (∀ c ∈ l, c ≠ '.') →
    splitOnDot l = [l] := by
  intro l
  induction l with
  | nil => intro _; rfl
  | cons c t ih =>
    intro h
    have hc : (c == '.') = false := by
      simp [h c (List.mem_cons_self c t)]
    unfold splitOnDot
    rw [hc]
    show (match splitOnDot t with
      | [] => [[c]]
      | h :: r => (c :: h) :: r) = [c :: t]
    rw [ih (fun x hx => h x (List.mem_cons_of_mem c hx))]

theorem splitOnDot_pair : ∀ l₁ l₂ : List Char, (∀ c ∈ l₁, c ≠ '.') →
    (∀ c ∈ l₂, c ≠ '.') → splitOnDot (l₁ ++ '.' :: l₂) = [l₁, l₂] := by
  intro l₁
  induction l₁ with
  | nil =>
    intro l₂ _ h₂
    show splitOnDot ('.' :: l₂) = [[], l₂]
    unfold splitOnDot
    rw [show (('.' : Char) == '.') = true from rfl]
    show [] :: splitOnDot l₂ = [[], l₂]
    rw [splitOnDot_noDot l₂ h₂]
  | cons c t ih =>
    intro l₂ h₁ h₂
    have hc : (c == '.') = false := by
      simp [h₁ c (List.mem_cons_self c t)]
    show splitOnDot (c :: (t ++ '.' :: l₂)) = [c :: t, l₂]
    unfold splitOnDot
    rw [hc]
    show (match splitOnDot (t ++ '.' :: l₂) with
      | [] => [[c]]
      | h :: r => (c :: h) :: r) = [c :: t, l₂]
    rw [ih l₂ (fun x hx => h₁ x (List.mem_cons_of_mem c hx)) h₂]

theorem all_digits_replicate_zero (k : Nat) :
    (List.replicate k '0').all isDigitB = true := by
  induction k with
  | zero => rfl
  | succ k ih =>
    rw [List.replicate_succ, List.all_cons, ih]
    rfl

theorem parseUnitsL_pos_whole (w : List Char) (d : Nat) (hne : w ≠ [])
    (hdig : w.all isDigitB = true) :
    parseUnitsL w d = some (intSign false (decValue w * 10 ^ d)) := by
  obtain ⟨c, t, rfl⟩ : ∃ c t, w = c :: t := by
    cases w with
    | nil => exact absurd rfl hne
    | cons c t => exact ⟨c, t, rfl⟩
  have hcdig : isDigitB c = true := by
    have := List.all_eq_true.mp hdig c (List.mem_cons_self c t)
    simpa using this
  have hneg : ((c :: t).headD 'x' == '-') = false := by
    show (c == '-') = false
    simp [isDigitB_ne_dash hcdig]
  simp only [parseUnitsL, hneg, Bool.false_eq_true, if_false,
    splitOnDot_noDot _ (all_digits_no_dot _ hdig), digitsVal_of_digits _ hdig]
  simp

theorem parseUnitsL_neg_whole (w : List Char) (d : Nat) (hne : w ≠ [])
    (hdig : w.all isDigitB = true) :
    parseUnitsL ('-' :: w) d = some (intSign true (decValue w * 10 ^ d)) := by
  have hneg : (('-' :: w).headD 'x' == '-') = true := rfl
  simp only [parseUnitsL, hneg, if_true, List.tail_cons,
    splitOnDot_noDot _ (all_digits_no_dot _ hdig), digitsVal_of_digits _ hdig]
  simp [hne]

theorem parseUnitsL_pos_dot (w f : List Char) (d : Nat) (hwne : w ≠ [])
    (hwdig : w.all isDigitB = true) (hfdig : f.all isDigitB = true)
    (hfl : f.length ≤ d) :
    parseUnitsL (w ++ '.' :: f) d
      = some (intSign false
          (decValue w * 10 ^ d + decValue f * 10 ^ (d - f.length))) := by
  obtain ⟨c, t, rfl⟩ : ∃ c t, w = c :: t := by
    cases w with
    | nil => exact absurd rfl hwne
    | cons c t => exact ⟨c, t, rfl⟩
  have hcdig : isDigitB c = true := by
    have := List.all_eq_true.mp hwdig c (List.mem_cons_self c t)
    simpa using this
  have hneg : (((c :: t) ++ '.' :: f).headD 'x' == '-') = false := by
    show (c == '-') = false
    simp [isDigitB_ne_dash hcdig]
  simp only [parseUnitsL, hneg, Bool.false_eq_true, if_false,
    splitOnDot_pair _ _ (all_digits_no_dot _ hwdig) (all_digits_no_dot _ hfdig),
    digitsVal_of_digits _ hwdig, digitsVal_of_digits _ hfdig]
  simp [hfl]

theorem parseUnitsL_neg_dot (w f : List Char) (d : Nat) (hwne : w ≠ [])
    (hwdig : w.all isDigitB = true) (hfdig : f.all isDigitB = true)
    (hfl : f.length ≤ d) :
    parseUnitsL ('-' :: (w ++ '.' :: f)) d
      = some (intSign true
          (decValue w * 10 ^ d + decValue f * 10 ^ (d - f.length))) := by
  have hneg : (('-' :: (w ++ '.' :: f)).headD 'x' == '-') = true := rfl
  have hwe : w.isEmpty = false := by
    cases w with
    | nil => exact absurd rfl hwne
    | cons c t => rfl
  simp only [parseUnitsL, hneg, if_true, List.tail_cons,
    splitOnDot_pair _ _ (all_digits_no_dot _ hwdig) (all_digits_no_dot _ hfdig),
    digitsVal_of_digits _ hwdig, digitsVal_of_digits _ hfdig]
  simp [hfl, hwe]

theorem formatUnitsL_pos_eq (v : Int) (d : Nat) (hd0 : d ≠ 0) :
    formatUnitsL v d = (if v < 0 then ['-'] else [])
      ++ (List.replicate (d + 1 - (natToDec v.natAbs).length) '0'
            ++ natToDec v.natAbs).take
          ((List.replicate (d + 1 - (natToDec v.natAbs).length) '0'
            ++ natToDec v.natAbs).length - d)
      ++ '.' :: stripFracZeros
          ((List.replicate (d + 1 - (natToDec v.natAbs).length) '0'
            ++ natToDec v.natAbs).drop
            ((List.replicate (d + 1 - (natToDec v.natAbs).length) '0'
              ++ natToDec v.natAbs).length - d)) := by
  simp only [formatUnitsL]
  rw [if_neg hd0]

/-- C6 (amended): the formatter is exact fixed-point conversion with the
sign preserved, no rounding and arbitrary-precision magnitudes, but it
trims trailing fractional zeros (keeping at least one fractional digit
when the scale is positive): parsing the formatted string at the same
scale recovers the quantity exactly, for every signed quantity and every
scale in the supported 0–36 range, so the round-trip
`format(parse(s, scale), scale) == s` holds exactly for strings in this
trimmed canonical form. -/
theorem parseUnits_formatUnits (v : Int) (d : Nat) (hd : d ≤ 36) :
    parseUnits (formatUnits v d) d = some v := by
  show parseUnitsL (formatUnitsL v d) d = some v
  have hsdig := natToDec_digits v.natAbs
  have hsne := natToDec_ne_nil v.natAbs
  have hsval := natToDec_val v.natAbs
  by_cases hd0 : d = 0
  · subst hd0
    by_cases hv : v < 0
    · have hfmt : formatUnitsL v 0 = '-' :: natToDec v.natAbs := by
        simp only [formatUnitsL]
        simp [hv]
      rw [hfmt, parseUnitsL_neg_whole _ 0 hsne hsdig]
      unfold intSign
      rw [if_pos rfl]
      rw [hsval]
      simp only [pow_zero, Nat.mul_one]
      congr 1
      omega
    · have hfmt : formatUnitsL v 0 = natToDec v.natAbs := by
        simp only [formatUnitsL]
        simp [hv]
      rw [hfmt, parseUnitsL_pos_whole _ 0 hsne hsdig]
      unfold intSign
      rw [if_neg (by simp)]
      rw [hsval]
      simp only [pow_zero, Nat.mul_one]
      congr 1
      omega
  · have hfmt := formatUnitsL_pos_eq v d hd0
    have hpdig : (List.replicate (d + 1 - (natToDec v.natAbs).length) '0'
        ++ natToDec v.natAbs).all isDigitB = true := by
      rw [List.all_append, all_digits_replicate_zero, hsdig]
      rfl
    have hplen : d + 1 ≤ (List.replicate (d + 1 - (natToDec v.natAbs).length) '0'
        ++ natToDec v.natAbs).length := by
      rw [List.length_append, List.length_replicate]
      have : 0 < (natToDec v.natAbs).length := by
        cases hc : natToDec v.natAbs with
        | nil => exact absurd hc hsne
        | cons x xs => simp
      omega
    set p := List.replicate (d + 1 - (natToDec v.natAbs).length) '0'
        ++ natToDec v.natAbs with hpdef
    set w := p.take (p.length - d) with hwdef
    set f0 := p.drop (p.length - d) with hf0def
    have hwf : w ++ f0 = p := List.take_append_drop _ _
    have hwlen : w.length = p.length - d := by
      rw [hwdef, List.length_take]
      omega
    have hf0len : f0.length = d := by
      rw [hf0def, List.length_drop]
      omega
    have hwne : w ≠ [] := by
      intro h
      rw [h] at hwlen
      simp at hwlen
      omega
    have hwdig : w.all isDigitB = true := by
      have h := hpdig
      rw [← hwf, List.all_append] at h
      exact (Bool.and_eq_true _ _ |>.mp h).1
    have hf0dig : f0.all isDigitB = true := by
      have h := hpdig
      rw [← hwf, List.all_append] at h
      exact (Bool.and_eq_true _ _ |>.mp h).2
    have hf0ne : f0 ≠ [] := by
      intro h
      rw [h] at hf0len
      simp at hf0len
      omega
    have hrne : f0.reverse ≠ [] := by simpa using hf0ne
    obtain ⟨k, hk, hkne⟩ := trimR_spec f0.reverse hrne
    have hfeq : f0 = stripFracZeros f0 ++ List.replicate k '0' := by
      unfold stripFracZeros
      have h2 := congrArg List.reverse hk
      rw [List.reverse_reverse] at h2
      conv_lhs => rw [h2]
      rw [List.reverse_append, List.reverse_replicate]
    have hfracne : stripFracZeros f0 ≠ [] := by
      unfold stripFracZeros
      simpa using hkne
    have hfraclen : (stripFracZeros f0).length + k = d := by
      have h2 := congrArg List.length hfeq
      rw [List.length_append, List.length_replicate] at h2
      omega
    have hfracdig : (stripFracZeros f0).all isDigitB = true := by
      have h := hf0dig
      rw [hfeq, List.all_append] at h
      exact (Bool.and_eq_true _ _ |>.mp h).1
    have hval : decValue w * 10 ^ d
        + decValue (stripFracZeros f0) * 10 ^ (d - (stripFracZeros f0).length)
        = v.natAbs := by
      have hpv : decValue p = v.natAbs := by
        rw [hpdef, decValue_leading_zeros, hsval]
      have hsplit : decValue p = decValue w * 10 ^ d + decValue f0 := by
        rw [← hwf, decValue_append, hf0len]
      have hf0v : decValue f0 = decValue (stripFracZeros f0) * 10 ^ k := by
        conv_lhs => rw [hfeq]
        rw [decValue_trailing_zeros]
      have hdk : d - (stripFracZeros f0).length = k := by omega
      rw [hdk, ← hf0v, ← hsplit, hpv]
    by_cases hv : v < 0
    · have hsign : (if v < 0 then ['-'] else []) = ['-'] := if_pos hv
      rw [hfmt, hsign]
      show parseUnitsL ('-' :: (w ++ '.' :: stripFracZeros f0)) d = some v
      rw [parseUnitsL_neg_dot w (stripFracZeros f0) d hwne hwdig hfracdig (by omega)]
      rw [hval]
      unfold intSign
      rw [if_pos rfl]
      congr 1
      omega
    · have hsign : (if v < 0 then ['-'] else []) = [] := if_neg hv
      rw [hfmt, hsign]
      show parseUnitsL (w ++ '.' :: stripFracZeros f0) d = some v
      rw [parseUnitsL_pos_dot w (stripFracZeros f0) d hwne hwdig hfracdig (by omega)]
      rw [hval]
      unfold intSign
      rw [if_neg (by simp)]
      congr 1
      omega

/-- C6 counterexample: the formatter does not keep exactly `scale`
fractional digits — trailing fractional zeros are trimmed, so
`format(-1500, 3)` is `"-1.5"`, not the claimed `"-1.500"`, and the
round-trip `format(parse("-1.500", 3), 3)` returns `"-1.5" ≠ "-1.500"`. -/
theorem format_trailing_zeros_cex :
    parseUnits "-1.500" 3 = some (-1500)
    ∧ formatUnits (-1500) 3 = "-1.5"
    ∧ formatUnits (-1500) 3 ≠ "-1.500" := by
  refine ⟨?_, ?_, ?_⟩ <;> decide

/-- C6 witness: the amended round-trip evaluated at the claim's own
example quantity `-1500` with scale 3. -/
theorem parseUnits_formatUnits_witness :
    (3 ≤ 36) ∧ parseUnits (formatUnits (-1500) 3) 3 = some (-1500) :=
  ⟨by omega, parseUnits_formatUnits (-1500) 3 (by omega)⟩

end PMM
